import Mathlib

set_option allowUnsafeReducibility true
attribute [local semireducible] Rat.add Rat.sub Rat.mul Rat.div Rat.inv

instance {e a : Type} [DecidableEq e] [DecidableEq a] : DecidableEq (Except e a) := fun x y =>
  match x, y with
  | .error u, .error v =>
    if h : u = v then .isTrue (by rw [h]) else .isFalse (fun hc => h (Except.error.inj hc))
  | .error _, .ok _ => .isFalse (fun hc => Except.noConfusion hc)
  | .ok _, .error _ => .isFalse (fun hc => Except.noConfusion hc)
  | .ok u, .ok v =>
    if h : u = v then .isTrue (by rw [h]) else .isFalse (fun hc => h (Except.ok.inj hc))

/-!
Verification of the genetic-algorithm jigsaw solver (`backend/main.py`).

The Python source is shallowly embedded below.  Images are modelled as a
width, a height and a pixel function returning the list of channel values
(the `np.int16` cast means pixel arithmetic is exact integer arithmetic);
floating point results are modelled as exact rationals.  Python's ambient
`random` module is modelled by an injectable stream `r : ℕ → ℕ` of raw
draws together with an explicit position counter: a bounded draw takes the
stream value modulo the bound, mirroring `random._randbelow`.  Operations
that can raise Python exceptions (`random.sample` with too few elements,
`np.argmax` of an empty list, indexing past the end of a list, `None.copy()`,
integer division by zero) return `Except PyErr`.
-/

namespace JigsawGA

/-- Kinds of Python runtime exceptions the embedded code can raise. -/
inductive PyErr where
  | valueError
  | indexError
  | attributeError
  | zeroDivisionError
deriving DecidableEq

/-- A raster image: dimensions plus a pixel function giving the channel
values at each coordinate (x = column, y = row). -/
structure Img where
  width : ℕ
  height : ℕ
  px : ℕ → ℕ → List ℤ

/-- The empty image, used as the (never semantically reached) default for
list indexing. -/
def emptyImg : Img := ⟨0, 0, fun _ _ => []⟩

/-- `image.crop((left, top, left+w, top+h))` of PIL: a w×h window. -/
def crop (img : Img) (left top w h : ℕ) : Img :=
  ⟨w, h, fun x y => img.px (left + x) (top + y)⟩

/-- Pixel-for-pixel equality of two images on their common domain,
dimensions included. -/
def ImgEq (a b : Img) : Prop :=
  a.width = b.width ∧ a.height = b.height ∧
    ∀ x ∈ Finset.range a.width, ∀ y ∈ Finset.range a.height, a.px x y = b.px x y

instance (a b : Img) : Decidable (ImgEq a b) := by
  unfold ImgEq; infer_instance

/-- `split_image` (main.py lines 24-34): computes the piece dimensions with
integer division (grid_size = 0 raises `ZeroDivisionError` in Python),
resizes the image to exact multiples, and crops the grid row-major.  The
resize kernel is an external PIL detail, injected as a parameter.  Returns
the piece list and the `original_sequence` list `i*grid_size + j`. -/
def split_image (resize : Img → ℕ → ℕ → Img) (image : Img) (grid_size : ℕ) :
    Except PyErr (List Img × List ℕ) :=
  if grid_size = 0 then .error .zeroDivisionError else
  let pw := image.width / grid_size
  let ph := image.height / grid_size
  let resized := resize image (pw * grid_size) (ph * grid_size)
  .ok ((List.range grid_size).flatMap
        (fun i => (List.range grid_size).map (fun j => crop resized (j * pw) (i * ph) pw ph)),
       (List.range grid_size).flatMap
        (fun i => (List.range grid_size).map (fun j => i * grid_size + j)))

/-- A bounded random draw: `random._randbelow(n)` from the stream at
position k.  (`n = 0` never occurs on reachable paths.) -/
def draw (r : ℕ → ℕ) (k n : ℕ) : ℕ :=
  if n = 0 then 0 else r k % n

/-- `random.random()`: a float in [0,1), modelled as `m / 2^53` exactly. -/
def randFloat (r : ℕ → ℕ) (k : ℕ) : ℚ :=
  ((r k % 2 ^ 53 : ℕ) : ℚ) / (2 ^ 53 : ℚ)

/-- Swap the entries at positions i and j of a list (a no-op outside the
list, matching in-range use). -/
def listSwap (l : List ℕ) (i j : ℕ) : List ℕ :=
  (l.set i (l.getD j 0)).set j (l.getD i 0)

/-- Fisher–Yates as implemented by `random.shuffle`: for i from len-1 down
to 1, draw j ≤ i and swap positions i and j.  The first argument is the
current value of i. -/
def shuffleAux (r : ℕ → ℕ) : ℕ → List ℕ → ℕ → List ℕ × ℕ
  | 0, l, k => (l, k)
  | i + 1, l, k => shuffleAux r i (listSwap l (i + 1) (draw r k (i + 2))) (k + 1)

/-- `create_chromosome` (lines 36-39): shuffle `list(range(len(pieces)))`. -/
def create_chromosome (r : ℕ → ℕ) (pieces : List Img) (k : ℕ) : List ℕ × ℕ :=
  shuffleAux r (pieces.length - 1) (List.range pieces.length) k

/-- Edge direction for `compare_edges`. -/
inductive Dir where
  | right
  | bottom

/-- The per-pixel absolute channel differences of the touching edges:
rightmost column of p1 against leftmost column of p2 (`right`), or bottom
row of p1 against top row of p2 (`bottom`), flattened over channels. -/
def edgeDiffs (p1 p2 : Img) : Dir → List ℤ
  | .right => (List.range p1.height).flatMap
      (fun y => ((p1.px (p1.width - 1) y).zip (p2.px 0 y)).map (fun q => |q.1 - q.2|))
  | .bottom => (List.range p1.width).flatMap
      (fun x => ((p1.px x (p1.height - 1)).zip (p2.px x 0)).map (fun q => |q.1 - q.2|))

/-- `compare_edges` (lines 41-46): `1 - mean(|edge1 - edge2|) / 255`. -/
def compare_edges (p1 p2 : Img) (d : Dir) : ℚ :=
  let ds := edgeDiffs p1 p2 d
  1 - (((ds.sum : ℤ) : ℚ) / (ds.length : ℚ)) / 255

/-- `calculate_fitness` (lines 48-59): sums edge-compatibility scores over
all horizontally and vertically adjacent cells and adds 5 for every
position whose placed tile id matches `original_sequence`.  Returns the
fitness and the boolean correct-position list. -/
def calculate_fitness (chromosome : List ℕ) (pieces : List Img)
    (original_sequence : List ℕ) (grid_size : ℕ) : ℚ × List Bool :=
  let correct := (List.range chromosome.length).map
    (fun i => decide (chromosome.getD i 0 = original_sequence.getD i 0))
  let piece := fun idx => pieces.getD (chromosome.getD idx 0) emptyImg
  let fitness := ((List.range grid_size).map (fun i =>
    ((List.range grid_size).map (fun j =>
      (if j < grid_size - 1 then
        compare_edges (piece (i * grid_size + j)) (piece (i * grid_size + (j + 1))) .right
       else 0) +
      (if i < grid_size - 1 then
        compare_edges (piece (i * grid_size + j)) (piece ((i + 1) * grid_size + j)) .bottom
       else 0))).sum)).sum
  (fitness + (correct.count true : ℕ) * 5, correct)

/-- `random.sample(range(n), 2)` followed by `sorted`: two distinct indices
below n, returned in increasing order; raises ValueError when n < 2. -/
def sample2 (r : ℕ → ℕ) (n k : ℕ) : Except PyErr ((ℕ × ℕ) × ℕ) :=
  if n < 2 then .error .valueError else
  let a := draw r k n
  let b0 := draw r (k + 1) (n - 1)
  let b := if a ≤ b0 then b0 + 1 else b0
  .ok ((min a b, max a b), k + 2)

/-- `random.sample(lst, 3)` index part: three distinct indices below n;
raises ValueError when n < 3. -/
def sample3 (r : ℕ → ℕ) (n k : ℕ) : Except PyErr ((ℕ × ℕ × ℕ) × ℕ) :=
  if n < 3 then .error .valueError else
  let a := draw r k n
  let b0 := draw r (k + 1) (n - 1)
  let b := if a ≤ b0 then b0 + 1 else b0
  let c0 := draw r (k + 2) (n - 2)
  let c1 := if min a b ≤ c0 then c0 + 1 else c0
  let c := if max a b ≤ c1 then c1 + 1 else c1
  .ok ((a, b, c), k + 3)

/-- `tournament_selection` (lines 61-62): sample three (chromosome,
fitness) pairs and keep the fittest, Python `max` keeping the earlier
element on ties. -/
def tournament_selection (r : ℕ → ℕ) (population : List (List ℕ))
    (fitnesses : List ℚ) (k : ℕ) : Except PyErr (List ℕ × ℕ) :=
  match sample3 r population.length k with
  | .error e => .error e
  | .ok ((i1, i2, i3), k1) =>
    let p := fun i => (population.getD i [], fitnesses.getD i 0)
    let m1 := if (p i1).2 < (p i2).2 then p i2 else p i1
    let m2 := if m1.2 < (p i3).2 then p i3 else m1
    .ok (m2.1, k1)

/-- The inner `while parent2[p2_index] in child: p2_index += 1` loop of
`crossover`: scan the remaining suffix of parent2 for the first gene not
already in the child; running off the end raises IndexError. -/
def findNonMem (child : List (Option ℕ)) : List ℕ → Except PyErr (ℕ × List ℕ)
  | [] => .error .indexError
  | x :: rest => if some x ∈ child then findNonMem child rest else .ok (x, rest)

/-- The `for i in range(size)` fill loop of `crossover`: every position
still `None` receives the next gene of parent2 that is not already in the
child.  The second argument is the not-yet-consumed suffix of parent2. -/
def fillChild (child : List (Option ℕ)) (p2rest : List ℕ) :
    List ℕ → Except PyErr (List (Option ℕ))
  | [] => .ok child
  | i :: rest =>
    match child.getD i none with
    | some _ => fillChild child p2rest rest
    | none =>
      match findNonMem child p2rest with
      | .error e => .error e
      | .ok (x, p2post) => fillChild (child.set i (some x)) p2post rest

/-- `child = [None]*size; child[start:end+1] = parent1[start:end+1]`. -/
def sliceChild (parent1 : List ℕ) (start endI : ℕ) : List (Option ℕ) :=
  List.replicate start none ++
    ((parent1.drop start).take (endI + 1 - start)).map some ++
    List.replicate (parent1.length - (endI + 1)) none

/-- `crossover` (lines 64-76) for given sorted cut points: copy parent1's
slice, fill the rest from parent2 in order skipping genes already present,
then read the (now fully assigned) child off. -/
def crossoverCore (parent1 parent2 : List ℕ) (start endI : ℕ) :
    Except PyErr (List ℕ) :=
  match fillChild (sliceChild parent1 start endI) parent2 (List.range parent1.length) with
  | .error e => .error e
  | .ok c => .ok (c.map (fun o => o.getD 0))

/-- `crossover` including the random choice of the two distinct cut
points. -/
def crossover (r : ℕ → ℕ) (parent1 parent2 : List ℕ) (k : ℕ) :
    Except PyErr (List ℕ × ℕ) :=
  match sample2 r parent1.length k with
  | .error e => .error e
  | .ok ((s, e), k1) =>
    match crossoverCore parent1 parent2 s e with
    | .error err => .error err
    | .ok c => .ok (c, k1)

/-- The body of `mutate` (lines 78-83): for each position i, with
probability `mutation_rate` swap it with a uniformly random position. -/
def mutateLoop (r : ℕ → ℕ) (mutation_rate : ℚ) :
    List ℕ → List ℕ → ℕ → List ℕ × ℕ
  | [], chrom, k => (chrom, k)
  | i :: rest, chrom, k =>
    if randFloat r k < mutation_rate then
      mutateLoop r mutation_rate rest (listSwap chrom i (draw r (k + 1) chrom.length)) (k + 2)
    else
      mutateLoop r mutation_rate rest chrom (k + 1)

/-- `mutate` (lines 78-83). -/
def mutate (r : ℕ → ℕ) (chrom : List ℕ) (mutation_rate : ℚ) (k : ℕ) :
    List ℕ × ℕ :=
  mutateLoop r mutation_rate (List.range chrom.length) chrom k

/-- One best-so-far record of `best_solutions` (line 102). -/
structure Snapshot where
  chromo : List ℕ
  fitness : ℚ
  correct : ℕ
deriving DecidableEq

/-- The GA's per-run mutable state between generations. -/
structure GAState where
  population : List (List ℕ)
  globalBest : Option (List ℕ × ℚ)
  stagnation : ℕ
  rngPos : ℕ
deriving DecidableEq

/-- The caller-supplied configuration of `genetic_algorithm`. -/
structure GAConfig where
  population_size : ℕ
  mutation_rate : ℚ
  grid_size : ℕ
  elite_count : ℕ
  stagnation_threshold : ℕ

/-- `fitnesses[best_index] > global_best_fitness` with the initial
`float('-inf')` represented by `none` (always beaten). -/
def beats (f : ℚ) : Option (List ℕ × ℚ) → Bool
  | none => true
  | some gb => decide (gb.2 < f)

/-- The maximum of a rational list (`none` on the empty list, where
`np.argmax` raises). -/
def maxVal : List ℚ → Option ℚ
  | [] => none
  | x :: xs => some (xs.foldl max x)

/-- First index holding the value M. -/
def firstIdxOf (M : ℚ) : List ℚ → ℕ
  | [] => 0
  | x :: xs => if x = M then 0 else firstIdxOf M xs + 1

/-- `np.argmax`: the first index attaining the maximum. -/
def argmaxIdx (l : List ℚ) : Option ℕ :=
  (maxVal l).map (fun M => firstIdxOf M l)

/-- The fitness values of a population (line 93). -/
def fitsOf (pieces : List Img) (oseq : List ℕ) (grid_size : ℕ)
    (pop : List (List ℕ)) : List ℚ :=
  pop.map (fun c => (calculate_fitness c pieces oseq grid_size).1)

/-- The correct-position counts of a population (line 94). -/
def countsOf (pieces : List Img) (oseq : List ℕ) (grid_size : ℕ)
    (pop : List (List ℕ)) : List ℕ :=
  pop.map (fun c => (calculate_fitness c pieces oseq grid_size).2.count true)

/-- Stable descending insertion by fitness key: the unique stable
descending order also produced by Python's `sorted(..., reverse=True)`. -/
def insertDesc (x : ℚ × List ℕ) : List (ℚ × List ℕ) → List (ℚ × List ℕ)
  | [] => [x]
  | y :: ys => if y.1 < x.1 then x :: y :: ys else y :: insertDesc x ys

/-- Stable descending sort by fitness key (line 109). -/
def sortDesc : List (ℚ × List ℕ) → List (ℚ × List ℕ)
  | [] => []
  | x :: xs => insertDesc x (sortDesc xs)

/-- Elitism (lines 109-110): sort the fitness/population pairs descending
by the paired fitness value and keep the first `elite_count` chromosomes. -/
def elitesOf (fitnesses : List ℚ) (pop : List (List ℕ)) (elite_count : ℕ) :
    List (List ℕ) :=
  ((sortDesc (fitnesses.zip pop)).map Prod.snd).take elite_count

/-- Stagnation recovery loop (lines 105-106): `population[-(i+1)] =
create_chromosome(pieces)` for i in `range(total)`; the first argument is
the number of remaining iterations. -/
def diversifyAux (r : ℕ → ℕ) (pieces : List Img) (total : ℕ) :
    ℕ → List (List ℕ) → ℕ → List (List ℕ) × ℕ
  | 0, pop, k => (pop, k)
  | m + 1, pop, k =>
    let res := create_chromosome r pieces k
    diversifyAux r pieces total m (pop.set (pop.length - (total - m)) res.1) res.2

/-- Stagnation recovery (lines 104-107): replace the last
`int(population_size * 0.5)` population slots with fresh chromosomes. -/
def diversify (r : ℕ → ℕ) (pieces : List Img) (population_size : ℕ)
    (pop : List (List ℕ)) (k : ℕ) : List (List ℕ) × ℕ :=
  diversifyAux r pieces (population_size / 2) (population_size / 2) pop k

/-- The reproduction loop (lines 112-115): produce the given number of
children, each by two tournament selections, ordered crossover and swap
mutation. -/
def makeChildren (r : ℕ → ℕ) (population : List (List ℕ)) (fitnesses : List ℚ)
    (mutation_rate : ℚ) : ℕ → ℕ → Except PyErr (List (List ℕ) × ℕ)
  | 0, k => .ok ([], k)
  | n + 1, k =>
    match tournament_selection r population fitnesses k with
    | .error e => .error e
    | .ok (p1, k1) =>
      match tournament_selection r population fitnesses k1 with
      | .error e => .error e
      | .ok (p2, k2) =>
        match crossover r p1 p2 k2 with
        | .error e => .error e
        | .ok (c, k3) =>
          let m := mutate r c mutation_rate k3
          match makeChildren r population fitnesses mutation_rate n m.2 with
          | .error e => .error e
          | .ok (rest, k5) => .ok (m.1 :: rest, k5)

/-- One generation of `genetic_algorithm` (lines 90-117): evaluate, track
the global best (strict improvement only), append the snapshot from the
global best and `best_index`'s correct count, optionally diversify, carry
the elites, breed children, and overwrite slot 0 with the global best. -/
def gaStep (r : ℕ → ℕ) (pieces : List Img) (oseq : List ℕ) (cfg : GAConfig)
    (st : GAState) : Except PyErr (GAState × Snapshot) :=
  let fitnesses := fitsOf pieces oseq cfg.grid_size st.population
  let correct_counts := countsOf pieces oseq cfg.grid_size st.population
  match argmaxIdx fitnesses with
  | none => .error .valueError
  | some bi =>
    let gbStag : Option (List ℕ × ℚ) × ℕ :=
      if beats (fitnesses.getD bi 0) st.globalBest then
        (some (st.population.getD bi [], fitnesses.getD bi 0), 0)
      else (st.globalBest, st.stagnation + 1)
    match gbStag.1 with
    | none => .error .attributeError
    | some gbp =>
      let snap : Snapshot := ⟨gbp.1, gbp.2, correct_counts.getD bi 0⟩
      let popStagK : List (List ℕ) × ℕ × ℕ :=
        if cfg.stagnation_threshold ≤ gbStag.2 then
          let dk := diversify r pieces cfg.population_size st.population st.rngPos
          (dk.1, 0, dk.2)
        else (st.population, gbStag.2, st.rngPos)
      let elites := elitesOf fitnesses popStagK.1 cfg.elite_count
      match makeChildren r popStagK.1 fitnesses cfg.mutation_rate
          (cfg.population_size - elites.length) popStagK.2.2 with
      | .error e => .error e
      | .ok (children, k3) =>
        .ok (⟨(elites ++ children).set 0 gbp.1, some gbp, popStagK.2.1, k3⟩, snap)

/-- The initial population (line 86): `population_size` fresh random
chromosomes built left to right. -/
def initPopulation (r : ℕ → ℕ) (pieces : List Img) :
    ℕ → ℕ → List (List ℕ) × ℕ
  | 0, k => ([], k)
  | m + 1, k =>
    let c := create_chromosome r pieces k
    let rest := initPopulation r pieces m c.2
    (c.1 :: rest.1, rest.2)

/-- The generation loop of `genetic_algorithm`, collecting one snapshot
per generation in order. -/
def gaLoop (r : ℕ → ℕ) (pieces : List Img) (oseq : List ℕ) (cfg : GAConfig) :
    ℕ → GAState → Except PyErr (List Snapshot)
  | 0, _ => .ok []
  | g + 1, st =>
    match gaStep r pieces oseq cfg st with
    | .error e => .error e
    | .ok (st1, snap) =>
      match gaLoop r pieces oseq cfg g st1 with
      | .error e => .error e
      | .ok snaps => .ok (snap :: snaps)

/-- `genetic_algorithm` (lines 85-118). -/
def genetic_algorithm (r : ℕ → ℕ) (pieces : List Img) (oseq : List ℕ)
    (population_size generations : ℕ) (mutation_rate : ℚ)
    (grid_size elite_count stagnation_threshold : ℕ) :
    Except PyErr (List Snapshot) :=
  let init := initPopulation r pieces population_size 0
  gaLoop r pieces oseq
    ⟨population_size, mutation_rate, grid_size, elite_count, stagnation_threshold⟩
    generations ⟨init.1, none, 0, init.2⟩

/-- `assemble_image` (lines 120-126): paste piece `chromosome[i*g+j]` at
cell (row i, col j) of a fresh canvas of `pieces[0]`-sized cells. -/
def assemble_image (chromosome : List ℕ) (pieces : List Img) (grid_size : ℕ) :
    Img :=
  let pw := (pieces.getD 0 emptyImg).width
  let ph := (pieces.getD 0 emptyImg).height
  ⟨pw * grid_size, ph * grid_size, fun x y =>
    (pieces.getD (chromosome.getD ((y / ph) * grid_size + x / pw) 0) emptyImg).px
      (x % pw) (y % ph)⟩

/-- The `/solve` endpoint pipeline (lines 129-146) up to the GA run: split
the uploaded image, then run the GA with the form parameters and the
hard-coded defaults `elite_count=10`, `stagnation_threshold=20`.  No
configuration validation of any kind is performed. -/
def solve_puzzle (resize : Img → ℕ → ℕ → Img) (r : ℕ → ℕ) (img : Img)
    (grid_size population_size generations : ℕ) (mutation_rate : ℚ) :
    Except PyErr (List Snapshot) :=
  match split_image resize img grid_size with
  | .error e => .error e
  | .ok pieces_oseq =>
    genetic_algorithm r pieces_oseq.1 pieces_oseq.2 population_size generations
      mutation_rate grid_size 10 20


/-! ### Auxiliary definitions used by the verification -/

/-- The genes of `l` not yet present in `child`, in order: the subsequence
of parent2 that the fill loop of `crossover` will consume. -/
def queueOf (child : List (Option ℕ)) (l : List ℕ) : List ℕ :=
  l.filter (fun x => !decide (some x ∈ child))

/-- Specification of the fill loop of `crossover`: walk the positions,
writing the next queue element into each still-empty slot. -/
def fillPure (child : List (Option ℕ)) : List ℕ → List ℕ → List (Option ℕ)
  | [], _ => child
  | i :: rest, queue =>
    if child.getD i none = none then
      fillPure (child.set i (some (queue.headD 0))) rest queue.tail
    else fillPure child rest queue

/-- All channel values of an image lie in the byte range 0..255. -/
def PxBound (img : Img) : Prop :=
  ∀ x y v, v ∈ img.px x y → 0 ≤ v ∧ v ≤ 255

/-- A 1×1 single-channel black tile. -/
def tile0 : Img := ⟨1, 1, fun _ _ => [0]⟩

/-- Four identical tiles: a 2×2 puzzle whose edges always match. -/
def pieces4 : List Img := [tile0, tile0, tile0, tile0]

/-- The all-zero random stream. -/
def r0 : ℕ → ℕ := fun _ => 0

/-- A crafted random stream: the first nine draws shuffle the three initial
chromosomes, the next three shuffle the diversification replacement. -/
def rC6 : ℕ → ℕ := fun k => [3, 3, 0, 1, 2, 1, 3, 2, 1, 0, 0, 0].getD k 0

/-- population_size 3, mutation_rate 0, grid 2, elite_count 2,
stagnation_threshold 0 (diversification fires every generation). -/
def cfgC6 : GAConfig := ⟨3, 0, 2, 2, 0⟩

/-- The state of a `genetic_algorithm rC6 pieces4 …` run as generation 0
begins: exactly what line 86 of main.py produces. -/
def st0C6 : GAState :=
  ⟨(initPopulation rC6 pieces4 3 0).1, none, 0, (initPopulation rC6 pieces4 3 0).2⟩

/-- population_size 3, mutation_rate 0, grid 2, elite_count 3 (the whole
population carries over), stagnation_threshold 20. -/
def cfgW : GAConfig := ⟨3, 0, 2, 3, 20⟩

/-- The initial state of a `genetic_algorithm r0 pieces4 …` run. -/
def st0W : GAState :=
  ⟨(initPopulation r0 pieces4 3 0).1, none, 0, (initPopulation r0 pieces4 3 0).2⟩

/-- A concrete 2×2 one-channel image with pairwise distinct pixels. -/
def imgW : Img := ⟨2, 2, fun x y => [(x : ℤ) + 2 * y]⟩

/-- A resize stub that returns its input unchanged (an identity-resize: the
witness image already has the requested dimensions). -/
def resizeId : Img → ℕ → ℕ → Img := fun i _ _ => i

/-! ### Generic list helpers -/

theorem getD_eq_getElem_of_lt {α : Type} (l : List α) (d : α) {i : ℕ}
    (h : i < l.length) : l.getD i d = l.get ⟨i, h⟩ := by
  simp [List.getD_eq_getElem?_getD, List.getElem?_eq_getElem h]

theorem getD_set_ne {α : Type} (l : List α) (a d : α) {i j : ℕ} (h : i ≠ j) :
    (l.set i a).getD j d = l.getD j d := by
  simp [List.getD_eq_getElem?_getD, List.getElem?_set_ne h]

theorem getD_set_self {α : Type} (l : List α) (a d : α) {i : ℕ}
    (h : i < l.length) : (l.set i a).getD i d = a := by
  simp [List.getD_eq_getElem?_getD, List.getElem?_set_self, h]

theorem getD_mem {α : Type} (l : List α) (d : α) {i : ℕ} (h : i < l.length) :
    l.getD i d ∈ l := by
  rw [getD_eq_getElem_of_lt l d h]
  exact List.get_mem l i h

theorem getD_map_of_lt {α β : Type} (l : List α) (f : α → β) (d : α) (d2 : β)
    {i : ℕ} (h : i < l.length) : (l.map f).getD i d2 = f (l.getD i d) := by
  rw [getD_eq_getElem_of_lt l d h]
  simp [List.getD_eq_getElem?_getD, List.getElem?_eq_getElem, h, List.getElem?_map]

theorem getD_range {n i : ℕ} (h : i < n) : (List.range n).getD i 0 = i := by
  simp [List.getD_eq_getElem?_getD, List.getElem?_range h]

theorem getD_cons_succ {α : Type} (x : α) (l : List α) (i : ℕ) (d : α) :
    (x :: l).getD (i + 1) d = l.getD i d := rfl

/-! ### Swapping entries preserves the multiset of a list -/

theorem cons_set_perm (x : ℕ) : ∀ (xs : List ℕ) (m : ℕ), m < xs.length →
    List.Perm (xs.getD m 0 :: xs.set m x) (x :: xs)
  | [], m, h => absurd h (by simp)
  | y :: ys, 0, _ => List.Perm.swap x y ys
  | y :: ys, m + 1, h => by
    have hm : m < ys.length := by simpa using h
    have h1 : List.Perm (ys.getD m 0 :: y :: ys.set m x) (y :: ys.getD m 0 :: ys.set m x) :=
      List.Perm.swap y (ys.getD m 0) (ys.set m x)
    have h2 : List.Perm (y :: ys.getD m 0 :: ys.set m x) (y :: x :: ys) :=
      List.Perm.cons y (cons_set_perm x ys m hm)
    have h3 : List.Perm (y :: x :: ys) (x :: y :: ys) := List.Perm.swap x y ys
    exact (h1.trans h2).trans h3

theorem listSwap_perm : ∀ (l : List ℕ) (i j : ℕ), i < l.length → j < l.length →
    List.Perm (listSwap l i j) l
  | [], _, _, hi, _ => absurd hi (by simp)
  | y :: ys, 0, 0, _, _ => by
    simp [listSwap]
  | y :: ys, 0, j + 1, hi, hj => by
    have hj2 : j < ys.length := by simpa using hj
    have : listSwap (y :: ys) 0 (j + 1) = ys.getD j 0 :: ys.set j y := by
      simp [listSwap, getD_cons_succ]
    rw [this]
    exact cons_set_perm y ys j hj2
  | y :: ys, i + 1, 0, hi, hj => by
    have hi2 : i < ys.length := by simpa using hi
    have : listSwap (y :: ys) (i + 1) 0 = ys.getD i 0 :: ys.set i y := by
      simp [listSwap, getD_cons_succ]
    rw [this]
    exact cons_set_perm y ys i hi2
  | y :: ys, i + 1, j + 1, hi, hj => by
    have hi2 : i < ys.length := by simpa using hi
    have hj2 : j < ys.length := by simpa using hj
    have : listSwap (y :: ys) (i + 1) (j + 1) = y :: listSwap ys i j := by
      simp [listSwap, getD_cons_succ]
    rw [this]
    exact List.Perm.cons y (listSwap_perm ys i j hi2 hj2)

theorem listSwap_length (l : List ℕ) (i j : ℕ) :
    (listSwap l i j).length = l.length := by
  simp [listSwap]

/-! ### Random draws and shuffling -/

theorem draw_lt (r : ℕ → ℕ) (k : ℕ) {n : ℕ} (h : 0 < n) : draw r k n < n := by
  unfold draw
  rw [if_neg (Nat.pos_iff_ne_zero.mp h)]
  exact Nat.mod_lt _ h

theorem shuffleAux_perm (r : ℕ → ℕ) : ∀ (i : ℕ) (l : List ℕ) (k : ℕ),
    i < l.length → List.Perm (shuffleAux r i l k).1 l
  | 0, l, k, _ => List.Perm.refl l
  | i + 1, l, k, h => by
    have hd : draw r k (i + 2) < l.length :=
      lt_of_lt_of_le (draw_lt r k (Nat.succ_pos _)) h
    have hsw := listSwap_perm l (i + 1) (draw r k (i + 2)) h hd
    have hlen : i < (listSwap l (i + 1) (draw r k (i + 2))).length := by
      rw [listSwap_length]
      exact Nat.lt_of_succ_lt h
    exact (shuffleAux_perm r i _ (k + 1) hlen).trans hsw

theorem create_chromosome_perm (r : ℕ → ℕ) (pieces : List Img) (k : ℕ) :
    List.Perm (create_chromosome r pieces k).1 (List.range pieces.length) := by
  unfold create_chromosome
  rcases Nat.eq_zero_or_pos pieces.length with h | h
  · rw [h]
    exact List.Perm.refl _
  · exact shuffleAux_perm r (pieces.length - 1) (List.range pieces.length) k
      (by simpa using Nat.sub_lt h Nat.one_pos)

theorem create_chromosome_length (r : ℕ → ℕ) (pieces : List Img) (k : ℕ) :
    (create_chromosome r pieces k).1.length = pieces.length := by
  have := (create_chromosome_perm r pieces k).length_eq
  simpa using this

/-! ### np.argmax -/

theorem foldl_max_init (xs : List ℚ) : ∀ a : ℚ, a ≤ xs.foldl max a := by
  induction xs with
  | nil => intro a; exact le_refl a
  | cons x xs ih =>
    intro a
    exact le_trans (le_max_left a x) (ih (max a x))

theorem foldl_max_mem_le (xs : List ℚ) : ∀ (a x : ℚ), x ∈ xs → x ≤ xs.foldl max a := by
  induction xs with
  | nil => intro a x hx; exact absurd hx (by simp)
  | cons y ys ih =>
    intro a x hx
    rcases List.mem_cons.mp hx with h | h
    · rw [h]
      exact le_trans (le_max_right a y) (foldl_max_init ys (max a y))
    · exact ih (max a y) x h

theorem foldl_max_cases (xs : List ℚ) : ∀ a : ℚ, xs.foldl max a = a ∨ xs.foldl max a ∈ xs := by
  induction xs with
  | nil => intro a; exact Or.inl rfl
  | cons y ys ih =>
    intro a
    rcases ih (max a y) with h | h
    · rcases max_choice a y with hm | hm
      · exact Or.inl (by rw [List.foldl_cons, h, hm])
      · exact Or.inr (by rw [List.foldl_cons, h, hm]; exact List.mem_cons_self y ys)
    · exact Or.inr (List.mem_cons_of_mem y h)

theorem maxVal_mem {l : List ℚ} {M : ℚ} (h : maxVal l = some M) : M ∈ l := by
  cases l with
  | nil => exact absurd h (by simp [maxVal])
  | cons x xs =>
    have hM : M = xs.foldl max x := by simpa [maxVal] using h.symm
    rcases foldl_max_cases xs x with hc | hc
    · rw [hM, hc]; exact List.mem_cons_self x xs
    · rw [hM]; exact List.mem_cons_of_mem x hc

theorem maxVal_ge {l : List ℚ} {M : ℚ} (h : maxVal l = some M) :
    ∀ x ∈ l, x ≤ M := by
  cases l with
  | nil => intro x hx; exact absurd hx (by simp)
  | cons y ys =>
    have hM : M = ys.foldl max y := by simpa [maxVal] using h.symm
    intro x hx
    rcases List.mem_cons.mp hx with hc | hc
    · rw [hM, hc]; exact foldl_max_init ys y
    · rw [hM]; exact foldl_max_mem_le ys y x hc

theorem firstIdxOf_lt_length {M : ℚ} : ∀ {l : List ℚ}, M ∈ l → firstIdxOf M l < l.length := by
  intro l
  induction l with
  | nil => intro h; exact absurd h (by simp)
  | cons x xs ih =>
    intro h
    by_cases hx : x = M
    · simp [firstIdxOf, hx]
    · have hm : M ∈ xs := by
        rcases List.mem_cons.mp h with hc | hc
        · exact absurd hc.symm hx
        · exact hc
      simpa [firstIdxOf, hx] using ih hm

theorem getD_firstIdxOf {M : ℚ} : ∀ {l : List ℚ}, M ∈ l → l.getD (firstIdxOf M l) 0 = M := by
  intro l
  induction l with
  | nil => intro h; exact absurd h (by simp)
  | cons x xs ih =>
    intro h
    by_cases hx : x = M
    · simp [firstIdxOf, hx]
    · have hm : M ∈ xs := by
        rcases List.mem_cons.mp h with hc | hc
        · exact absurd hc.symm hx
        · exact hc
      simpa [firstIdxOf, hx, getD_cons_succ] using ih hm

theorem argmaxIdx_lt {l : List ℚ} {bi : ℕ} (h : argmaxIdx l = some bi) :
    bi < l.length := by
  unfold argmaxIdx at h
  cases hm : maxVal l with
  | none => rw [hm] at h; exact absurd h (by simp)
  | some M =>
    rw [hm] at h
    have hbi : bi = firstIdxOf M l := by simpa using h.symm
    rw [hbi]
    exact firstIdxOf_lt_length (maxVal_mem hm)

theorem argmaxIdx_max {l : List ℚ} {bi : ℕ} (h : argmaxIdx l = some bi) :
    ∀ j, j < l.length → l.getD j 0 ≤ l.getD bi 0 := by
  unfold argmaxIdx at h
  cases hm : maxVal l with
  | none => rw [hm] at h; exact absurd h (by simp)
  | some M =>
    rw [hm] at h
    have hbi : bi = firstIdxOf M l := by simpa using h.symm
    intro j hj
    rw [hbi, getD_firstIdxOf (maxVal_mem hm)]
    exact maxVal_ge hm _ (getD_mem l 0 hj)

theorem argmaxIdx_first {l : List ℚ} {bi : ℕ} (h : argmaxIdx l = some bi)
    (h0 : ∀ j, j < l.length → l.getD j 0 ≤ l.getD 0 0) : bi = 0 := by
  unfold argmaxIdx at h
  cases hm : maxVal l with
  | none => rw [hm] at h; exact absurd h (by simp)
  | some M =>
    rw [hm] at h
    have hbi : bi = firstIdxOf M l := by simpa using h.symm
    cases l with
    | nil => exact absurd (maxVal_mem hm) (by simp)
    | cons x xs =>
      have hx : x = M := by
        have h1 : M ≤ x := by
          rcases List.mem_iff_getElem.mp (maxVal_mem hm) with ⟨j, hj, hje⟩
          have := h0 j (by simpa using hj)
          rw [getD_eq_getElem_of_lt _ 0 hj] at this
          simpa [hje] using this
        have h2 : x ≤ M := maxVal_ge hm x (List.mem_cons_self x xs)
        exact le_antisymm h2 h1
      rw [hbi]
      simp [firstIdxOf, hx]

theorem argmaxIdx_eq_none_iff (l : List ℚ) : argmaxIdx l = none ↔ l = [] := by
  cases l <;> simp [argmaxIdx, maxVal]

/-! ### The stable descending sort -/

theorem insertDesc_perm (x : ℚ × List ℕ) : ∀ l : List (ℚ × List ℕ),
    List.Perm (insertDesc x l) (x :: l)
  | [] => List.Perm.refl _
  | y :: ys => by
    unfold insertDesc
    by_cases h : y.1 < x.1
    · rw [if_pos h]
    · rw [if_neg h]
      exact (List.Perm.cons y (insertDesc_perm x ys)).trans (List.Perm.swap x y ys)

theorem sortDesc_perm : ∀ l : List (ℚ × List ℕ), List.Perm (sortDesc l) l
  | [] => List.Perm.refl _
  | x :: xs => (insertDesc_perm x (sortDesc xs)).trans (List.Perm.cons x (sortDesc_perm xs))

theorem insertDesc_pairwise (x : ℚ × List ℕ) : ∀ {l : List (ℚ × List ℕ)},
    List.Pairwise (fun a b => b.1 ≤ a.1) l →
    List.Pairwise (fun a b => b.1 ≤ a.1) (insertDesc x l) := by
  intro l
  induction l with
  | nil => intro _; simp [insertDesc]
  | cons y ys ih =>
    intro hp
    rcases List.pairwise_cons.mp hp with ⟨hy, hys⟩
    unfold insertDesc
    by_cases h : y.1 < x.1
    · rw [if_pos h]
      refine List.pairwise_cons.mpr ⟨?_, hp⟩
      intro z hz
      rcases List.mem_cons.mp hz with hc | hc
      · rw [hc]; exact le_of_lt h
      · exact le_trans (hy z hc) (le_of_lt h)
    · rw [if_neg h]
      refine List.pairwise_cons.mpr ⟨?_, ih hys⟩
      intro z hz
      have hz2 : z ∈ x :: ys := (insertDesc_perm x ys).mem_iff.mp hz
      rcases List.mem_cons.mp hz2 with hc | hc
      · rw [hc]; exact le_of_not_lt h
      · exact hy z hc

theorem sortDesc_pairwise : ∀ l : List (ℚ × List ℕ),
    List.Pairwise (fun a b => b.1 ≤ a.1) (sortDesc l)
  | [] => by simp [sortDesc]
  | x :: xs => insertDesc_pairwise x (sortDesc_pairwise xs)

theorem zip_map_fst {α : Type} (f : α → ℚ) : ∀ P : List α,
    (P.map f).zip P = P.map (fun c => (f c, c))
  | [] => rfl
  | c :: cs => by simp [zip_map_fst f cs]

/-! ### reduceOption and indexing helpers for the crossover proof -/

theorem redOpt_replicate_none (n : ℕ) :
    (List.replicate n (none : Option ℕ)).reduceOption = [] := by
  induction n with
  | zero => rfl
  | succ m ih => simpa [List.replicate_succ, List.reduceOption_cons_of_none] using ih

theorem redOpt_map_some (l : List ℕ) : (l.map some).reduceOption = l := by
  induction l with
  | nil => rfl
  | cons x xs ih => simpa [List.reduceOption_cons_of_some] using ih

theorem reduceOption_length_le_self (c : List (Option ℕ)) :
    c.reduceOption.length ≤ c.length := by
  induction c with
  | nil => exact Nat.le_refl 0
  | cons o t ih =>
    cases o with
    | none => simpa [List.reduceOption_cons_of_none] using Nat.le_succ_of_le ih
    | some v => simpa [List.reduceOption_cons_of_some] using Nat.succ_le_succ ih

theorem map_getD_eq_reduceOption : ∀ c : List (Option ℕ),
    c.reduceOption.length = c.length → c.map (fun o => o.getD 0) = c.reduceOption
  | [], _ => rfl
  | none :: t, h => by
    exfalso
    rw [List.reduceOption_cons_of_none] at h
    have := reduceOption_length_le_self t
    simp at h
    omega
  | some v :: t, h => by
    rw [List.reduceOption_cons_of_some] at h ⊢
    simp only [List.map_cons, Option.getD_some]
    rw [map_getD_eq_reduceOption t (by simpa using h)]

theorem getD_append_left {α : Type} (l1 l2 : List α) (d : α) {i : ℕ}
    (h : i < l1.length) : (l1 ++ l2).getD i d = l1.getD i d := by
  simp [List.getD_eq_getElem?_getD, List.getElem?_append_left h]

theorem getD_append_right {α : Type} (l1 l2 : List α) (d : α) {i : ℕ}
    (h : l1.length ≤ i) : (l1 ++ l2).getD i d = l2.getD (i - l1.length) d := by
  simp [List.getD_eq_getElem?_getD, List.getElem?_append_right h]

theorem getD_replicate {α : Type} (a d : α) {n i : ℕ} (h : i < n) :
    (List.replicate n a).getD i d = a := by
  rw [getD_eq_getElem_of_lt _ d (by simpa using h)]
  simp

theorem getD_replicate_ge {α : Type} (a d : α) {n i : ℕ} (h : n ≤ i) :
    (List.replicate n a).getD i d = d := by
  apply List.getD_eq_default
  simpa using h

theorem getD_take {α : Type} (l : List α) (d : α) {n i : ℕ} (h : i < n) :
    (l.take n).getD i d = l.getD i d := by
  simp [List.getD_eq_getElem?_getD, List.getElem?_take_of_lt h]

theorem getD_drop {α : Type} (l : List α) (d : α) (s i : ℕ) :
    (l.drop s).getD i d = l.getD (s + i) d := by
  simp [List.getD_eq_getElem?_getD, List.getElem?_drop]

/-! ### The slice-initialised child -/

theorem sliceChild_length {p1 : List ℕ} {s e : ℕ} (hse : s ≤ e)
    (he : e < p1.length) : (sliceChild p1 s e).length = p1.length := by
  unfold sliceChild
  simp only [List.length_append, List.length_replicate, List.length_map,
    List.length_take, List.length_drop]
  omega

theorem sliceChild_getD_lt {p1 : List ℕ} {s e i : ℕ} (h : i < s) :
    (sliceChild p1 s e).getD i none = none := by
  unfold sliceChild
  rw [List.append_assoc, getD_append_left _ _ _ (by simpa using h)]
  exact getD_replicate _ _ h

theorem sliceChild_getD_mid {p1 : List ℕ} {s e i : ℕ} (hs : s ≤ i) (hie : i ≤ e)
    (he : e < p1.length) : (sliceChild p1 s e).getD i none = some (p1.getD i 0) := by
  unfold sliceChild
  have hlen : (List.replicate s (none : Option ℕ)).length = s := by simp
  have hmaplen : (((p1.drop s).take (e + 1 - s)).map some).length = e + 1 - s := by
    simp only [List.length_map, List.length_take, List.length_drop]
    omega
  rw [List.append_assoc, getD_append_right _ _ _ (by omega)]
  rw [hlen, getD_append_left _ _ _ (by omega)]
  rw [getD_map_of_lt _ _ 0 _ (by simp only [List.length_take, List.length_drop]; omega)]
  rw [getD_take _ _ (by omega), getD_drop]
  have heq : s + (i - s) = i := by omega
  rw [heq]

theorem sliceChild_getD_gt {p1 : List ℕ} {s e i : ℕ} (hse : s ≤ e) (h : e < i) :
    (sliceChild p1 s e).getD i none = none := by
  unfold sliceChild
  by_cases hi : i < p1.length
  · have hlen : (List.replicate s (none : Option ℕ)).length = s := by simp
    have hmaplen : (((p1.drop s).take (e + 1 - s)).map some).length = e + 1 - s := by
      simp only [List.length_map, List.length_take, List.length_drop]
      omega
    rw [List.append_assoc, getD_append_right _ _ _ (by omega)]
    rw [hlen, getD_append_right _ _ _ (by omega)]
    exact getD_replicate _ _ (by omega)
  · apply List.getD_eq_default
    simp only [List.length_append, List.length_replicate, List.length_map,
      List.length_take, List.length_drop]
    omega

theorem mem_sliceChild {p1 : List ℕ} {s e v : ℕ} :
    some v ∈ sliceChild p1 s e ↔ v ∈ (p1.drop s).take (e + 1 - s) := by
  unfold sliceChild
  simp only [List.mem_append, List.mem_replicate, List.mem_map, Option.some.injEq]
  constructor
  · intro h
    rcases h with (h | ⟨a, ha, hav⟩) | h
    · exact absurd h.2 (by simp)
    · rw [← hav]; exact ha
    · exact absurd h.2 (by simp)
  · intro h
    exact Or.inl (Or.inr ⟨v, h, rfl⟩)

theorem redOpt_sliceChild (p1 : List ℕ) (s e : ℕ) :
    (sliceChild p1 s e).reduceOption = (p1.drop s).take (e + 1 - s) := by
  unfold sliceChild
  rw [List.reduceOption_append, List.reduceOption_append]
  rw [redOpt_replicate_none, redOpt_replicate_none, redOpt_map_some]
  simp

/-! ### The parent2 scan loop -/

theorem findNonMem_ok {child : List (Option ℕ)} : ∀ {l : List ℕ}, l.Nodup →
    ∀ {q : ℕ} {qs : List ℕ}, queueOf child l = q :: qs →
    ∃ post, findNonMem child l = .ok (q, post) ∧ post.Nodup ∧
      queueOf child post = qs ∧ q ∉ post ∧ ∀ x ∈ post, x ∈ l := by
  intro l
  induction l with
  | nil => intro _ q qs h; exact absurd h (by simp [queueOf])
  | cons x rest ih =>
    intro hnd q qs h
    rcases List.nodup_cons.mp hnd with ⟨hx, hrest⟩
    by_cases hmem : some x ∈ child
    · have hq : queueOf child rest = q :: qs := by
        simpa [queueOf, List.filter_cons, hmem] using h
      rcases ih hrest hq with ⟨post, h1, h2, h3, h4, h5⟩
      refine ⟨post, ?_, h2, h3, h4, fun z hz => List.mem_cons_of_mem x (h5 z hz)⟩
      simpa [findNonMem, hmem] using h1
    · have hq : x = q ∧ queueOf child rest = qs := by
        have := h
        simp only [queueOf, List.filter_cons] at this
        rw [if_pos (by simpa using hmem)] at this
        exact ⟨(List.cons.inj this).1, (List.cons.inj this).2⟩
      obtain ⟨hxq, hq2⟩ := hq
      subst hxq
      refine ⟨rest, ?_, hrest, hq2, hx, fun z hz => List.mem_cons_of_mem x hz⟩
      simp [findNonMem, hmem]

theorem findNonMem_err {child : List (Option ℕ)} : ∀ {l : List ℕ},
    queueOf child l = [] → findNonMem child l = .error .indexError := by
  intro l
  induction l with
  | nil => intro _; rfl
  | cons x rest ih =>
    intro h
    by_cases hmem : some x ∈ child
    · have hq : queueOf child rest = [] := by
        simpa [queueOf, List.filter_cons, hmem] using h
      simpa [findNonMem, hmem] using ih hq
    · exfalso
      simp only [queueOf, List.filter_cons] at h
      rw [if_pos (by simpa using hmem)] at h
      exact List.cons_ne_nil _ _ h

/-! ### Membership after writing into an empty slot -/

theorem child_decomp {child : List (Option ℕ)} {i : ℕ} (hi : i < child.length)
    (hnone : child.getD i none = none) :
    child = child.take i ++ (none : Option ℕ) :: child.drop (i + 1) := by
  conv_lhs => rw [← List.take_append_drop i child]
  rw [List.drop_eq_getElem_cons hi]
  rw [getD_eq_getElem_of_lt _ none hi, List.get_eq_getElem] at hnone
  rw [hnone]

theorem set_decomp {child : List (Option ℕ)} {i : ℕ} (o : Option ℕ)
    (hi : i < child.length) :
    child.set i o = child.take i ++ o :: child.drop (i + 1) := by
  rw [List.set_eq_take_append_cons_drop]
  rw [if_pos hi]

theorem mem_set_none {child : List (Option ℕ)} {i q x : ℕ}
    (hi : i < child.length) (hnone : child.getD i none = none) :
    some x ∈ child.set i (some q) ↔ (some x ∈ child ∨ x = q) := by
  rw [set_decomp (some q) hi]
  conv_rhs => rw [child_decomp hi hnone]
  simp only [List.mem_append, List.mem_cons, Option.some.injEq]
  constructor
  · intro h
    rcases h with h | h | h
    · exact Or.inl (Or.inl h)
    · exact Or.inr h
    · exact Or.inl (Or.inr (Or.inr h))
  · intro h
    rcases h with (h | h | h) | h
    · exact Or.inl h
    · exact absurd h (by simp)
    · exact Or.inr (Or.inr h)
    · exact Or.inr (Or.inl h)

theorem queueOf_set {child : List (Option ℕ)} {post : List ℕ} {i q : ℕ}
    (hi : i < child.length) (hnone : child.getD i none = none) (hq : q ∉ post) :
    queueOf (child.set i (some q)) post = queueOf child post := by
  unfold queueOf
  apply List.filter_congr
  intro x hx
  have hxq : x ≠ q := fun h => hq (h ▸ hx)
  have := mem_set_none (q := q) (x := x) hi hnone
  by_cases hm : some x ∈ child
  · simp [hm, this.mpr (Or.inl hm)]
  · have : ¬ some x ∈ child.set i (some q) := fun hc => by
      rcases this.mp hc with h | h
      · exact hm h
      · exact hxq h
    simp [hm, this]

/-! ### Counting empty slots -/

theorem countP_congr_getD {child child2 : List (Option ℕ)} : ∀ {idxs : List ℕ},
    (∀ i ∈ idxs, child.getD i none = child2.getD i none) →
    idxs.countP (fun i => decide (child.getD i none = none)) =
      idxs.countP (fun i => decide (child2.getD i none = none)) := by
  intro idxs h
  apply List.countP_congr
  intro i hi
  rw [h i hi]

theorem countP_range_getD : ∀ (c : List (Option ℕ)) (p : Option ℕ → Bool),
    (List.range c.length).countP (fun i => p (c.getD i none)) = c.countP p := by
  intro c
  induction c with
  | nil => intro p; rfl
  | cons o t ih =>
    intro p
    rw [List.length_cons, List.range_succ_eq_map, List.countP_cons]
    rw [List.countP_map]
    have hcomp : ((fun i => p ((o :: t).getD i none)) ∘ Nat.succ) =
        (fun i => p (t.getD i none)) := by
      funext i
      simp [Function.comp, getD_cons_succ]
    rw [hcomp, ih p, List.countP_cons]
    rfl

theorem countP_none_eq (c : List (Option ℕ)) :
    c.countP (fun o => decide (o = none)) = c.length - c.reduceOption.length := by
  induction c with
  | nil => rfl
  | cons o t ih =>
    cases o with
    | none =>
      rw [List.countP_cons, List.reduceOption_cons_of_none]
      have := reduceOption_length_le_self t
      simp [ih]
      omega
    | some v =>
      rw [List.countP_cons, List.reduceOption_cons_of_some]
      simp [ih]

/-! ### The fill loop equals its specification -/

theorem fillChild_eq_fillPure : ∀ (idxs : List ℕ) (child : List (Option ℕ))
    (p2rest : List ℕ), p2rest.Nodup → idxs.Nodup →
    (∀ i ∈ idxs, i < child.length) →
    idxs.countP (fun i => decide (child.getD i none = none)) ≤
      (queueOf child p2rest).length →
    fillChild child p2rest idxs = .ok (fillPure child idxs (queueOf child p2rest)) := by
  intro idxs
  induction idxs with
  | nil => intro child p2rest _ _ _ _; rfl
  | cons i rest ih =>
    intro child p2rest hnd hidxnd hbound hcount
    rcases List.nodup_cons.mp hidxnd with ⟨hi_rest, hrestnd⟩
    have hi : i < child.length := hbound i (List.mem_cons_self i rest)
    cases hnone : child.getD i none with
    | some v =>
      have hp : (decide (child.getD i none = none)) = false := by
        rw [hnone]; rfl
      have hcount2 : rest.countP (fun j => decide (child.getD j none = none)) ≤
          (queueOf child p2rest).length := by
        rw [List.countP_cons] at hcount
        rw [hp] at hcount
        simpa using hcount
      have hrec := ih child p2rest hnd hrestnd
        (fun j hj => hbound j (List.mem_cons_of_mem i hj)) hcount2
      have hl : fillChild child p2rest (i :: rest) = fillChild child p2rest rest := by
        conv_lhs => rw [fillChild]
        rw [hnone]
      have hr : fillPure child (i :: rest) (queueOf child p2rest) =
          fillPure child rest (queueOf child p2rest) := by
        rw [fillPure]
        rw [if_neg (by rw [hnone]; exact fun hc => Option.noConfusion hc)]
      rw [hl, hrec, hr]
    | none =>
      have hp : (decide (child.getD i none = none)) = true := by
        rw [hnone]; rfl
      have hcount4 : rest.countP (fun j => decide (child.getD j none = none)) + 1 ≤
          (queueOf child p2rest).length := by
        rw [List.countP_cons, hp] at hcount
        simpa using hcount
      obtain ⟨q, qs, hq⟩ : ∃ q qs, queueOf child p2rest = q :: qs := by
        cases hql : queueOf child p2rest with
        | nil => rw [hql] at hcount4; exact absurd hcount4 (by simp)
        | cons a b => exact ⟨a, b, rfl⟩
      rcases findNonMem_ok hnd hq with ⟨post, hfnm, hpostnd, hpostq, hqpost, hpostsub⟩
      have hset_len : (child.set i (some q)).length = child.length := by simp
      have hqpost2 : queueOf (child.set i (some q)) post = qs := by
        rw [queueOf_set hi hnone hqpost, hpostq]
      have hcount3 : rest.countP
          (fun j => decide ((child.set i (some q)).getD j none = none)) ≤
          (queueOf (child.set i (some q)) post).length := by
        have hc : rest.countP (fun j => decide ((child.set i (some q)).getD j none = none)) =
            rest.countP (fun j => decide (child.getD j none = none)) := by
          apply countP_congr_getD
          intro j hj
          exact getD_set_ne child (some q) none (fun he => hi_rest (he ▸ hj))
        rw [hc, hqpost2]
        have hlen : (queueOf child p2rest).length = qs.length + 1 := by
          rw [hq]; rfl
        omega
      have hrec := ih (child.set i (some q)) post hpostnd hrestnd
        (fun j hj => hset_len ▸ hbound j (List.mem_cons_of_mem i hj)) hcount3
      have hl : fillChild child p2rest (i :: rest) =
          fillChild (child.set i (some q)) post rest := by
        conv_lhs => rw [fillChild]
        rw [hnone, hfnm]
      have hr : fillPure child (i :: rest) (queueOf child p2rest) =
          fillPure (child.set i (some q)) rest qs := by
        rw [fillPure]
        rw [if_pos hnone, hq]
        rfl
      rw [hl, hr, hrec, hqpost2]

/-! ### Properties of the fill specification -/

theorem fillPure_length : ∀ (idxs : List ℕ) (child : List (Option ℕ))
    (queue : List ℕ), (fillPure child idxs queue).length = child.length := by
  intro idxs
  induction idxs with
  | nil => intro child queue; rfl
  | cons i rest ih =>
    intro child queue
    rw [fillPure]
    by_cases hnone : child.getD i none = none
    · rw [if_pos hnone, ih]
      simp
    · rw [if_neg hnone, ih]

theorem fillPure_keep_some : ∀ (idxs : List ℕ) (child : List (Option ℕ))
    (queue : List ℕ) (j : ℕ) (v : ℕ), child.getD j none = some v →
    (fillPure child idxs queue).getD j none = some v := by
  intro idxs
  induction idxs with
  | nil => intro child queue j v h; exact h
  | cons i rest ih =>
    intro child queue j v h
    rw [fillPure]
    by_cases hnone : child.getD i none = none
    · rw [if_pos hnone]
      apply ih
      have hij : i ≠ j := fun he => by rw [he, h] at hnone; exact Option.noConfusion hnone
      rw [getD_set_ne child _ none hij]
      exact h
    · rw [if_neg hnone]
      exact ih child queue j v h

theorem fillPure_unchanged : ∀ (idxs : List ℕ) (child : List (Option ℕ))
    (queue : List ℕ) (j : ℕ), j ∉ idxs →
    (fillPure child idxs queue).getD j none = child.getD j none := by
  intro idxs
  induction idxs with
  | nil => intro child queue j _; rfl
  | cons i rest ih =>
    intro child queue j hj
    have hji : i ≠ j := fun he => hj (he ▸ List.mem_cons_self i rest)
    have hjrest : j ∉ rest := fun hc => hj (List.mem_cons_of_mem i hc)
    rw [fillPure]
    by_cases hnone : child.getD i none = none
    · rw [if_pos hnone, ih _ _ _ hjrest]
      exact getD_set_ne child _ none hji
    · rw [if_neg hnone]
      exact ih child queue j hjrest

theorem fillPure_filled : ∀ (idxs : List ℕ) (child : List (Option ℕ))
    (queue : List ℕ), idxs.Nodup → (∀ i ∈ idxs, i < child.length) →
    idxs.countP (fun i => decide (child.getD i none = none)) ≤ queue.length →
    (idxs.filter (fun i => decide (child.getD i none = none))).map
        (fun i => (fillPure child idxs queue).getD i none) =
      (queue.take (idxs.countP (fun i => decide (child.getD i none = none)))).map some := by
  intro idxs
  induction idxs with
  | nil => intro child queue _ _ _; rfl
  | cons i rest ih =>
    intro child queue hnd hbound hcount
    rcases List.nodup_cons.mp hnd with ⟨hi_rest, hrestnd⟩
    have hi : i < child.length := hbound i (List.mem_cons_self i rest)
    by_cases hnone : child.getD i none = none
    · have hp : (decide (child.getD i none = none)) = true := by rw [hnone]; rfl
      have hfc : (i :: rest).filter (fun j => decide (child.getD j none = none)) =
          i :: rest.filter (fun j => decide (child.getD j none = none)) := by
        rw [List.filter_cons, hp]
        rfl
      have hcc : (i :: rest).countP (fun j => decide (child.getD j none = none)) =
          rest.countP (fun j => decide (child.getD j none = none)) + 1 := by
        rw [List.countP_cons, hp]
        rfl
      obtain ⟨q, qs, hq⟩ : ∃ q qs, queue = q :: qs := by
        rw [hcc] at hcount
        cases queue with
        | nil => exact absurd hcount (by simp)
        | cons a b => exact ⟨a, b, rfl⟩
      subst hq
      have hstep : fillPure child (i :: rest) (q :: qs) =
          fillPure (child.set i (some q)) rest qs := by
        rw [fillPure, if_pos hnone]
        rfl
      have hgd : ∀ j ∈ rest, (child.set i (some q)).getD j none = child.getD j none :=
        fun j hj => getD_set_ne child _ none (fun he => hi_rest (he ▸ hj))
      have hfiltr : rest.filter (fun j => decide (child.getD j none = none)) =
          rest.filter (fun j => decide ((child.set i (some q)).getD j none = none)) := by
        apply List.filter_congr
        intro j hj
        rw [hgd j hj]
      have hcntr : rest.countP (fun j => decide (child.getD j none = none)) =
          rest.countP (fun j => decide ((child.set i (some q)).getD j none = none)) :=
        countP_congr_getD (fun j hj => (hgd j hj).symm)
      have hcount2 : rest.countP
          (fun j => decide ((child.set i (some q)).getD j none = none)) ≤ qs.length := by
        rw [hcc, List.length_cons] at hcount
        omega
      have hbound2 : ∀ j ∈ rest, j < (child.set i (some q)).length := by
        intro j hj
        have := hbound j (List.mem_cons_of_mem i hj)
        simpa using this
      have hrec := ih (child.set i (some q)) qs hrestnd hbound2 hcount2
      rw [hfc, List.map_cons, hstep, hcc]
      have hhead : (fillPure (child.set i (some q)) rest qs).getD i none = some q := by
        rw [fillPure_unchanged rest _ qs i hi_rest]
        exact getD_set_self child (some q) none hi
      rw [hhead]
      have htake : (q :: qs).take
          (rest.countP (fun j => decide (child.getD j none = none)) + 1) =
          q :: qs.take (rest.countP (fun j => decide (child.getD j none = none))) := rfl
      rw [htake, List.map_cons]
      congr 1
      rw [hfiltr, hcntr]
      exact hrec
    · have hp : (decide (child.getD i none = none)) = false := by simpa using hnone
      have hfc : (i :: rest).filter (fun j => decide (child.getD j none = none)) =
          rest.filter (fun j => decide (child.getD j none = none)) := by
        rw [List.filter_cons, hp]
        rfl
      have hcc : (i :: rest).countP (fun j => decide (child.getD j none = none)) =
          rest.countP (fun j => decide (child.getD j none = none)) := by
        rw [List.countP_cons, hp]
        rfl
      have hstep : fillPure child (i :: rest) queue = fillPure child rest queue := by
        rw [fillPure, if_neg hnone]
      have hcount2 : rest.countP (fun j => decide (child.getD j none = none)) ≤
          queue.length := by
        rw [hcc] at hcount
        exact hcount
      rw [hfc, hcc, hstep]
      exact ih child queue hrestnd
        (fun j hj => hbound j (List.mem_cons_of_mem i hj)) hcount2

theorem redOpt_set_none_perm {child : List (Option ℕ)} {i q : ℕ}
    (hi : i < child.length) (hnone : child.getD i none = none) :
    List.Perm (child.set i (some q)).reduceOption (q :: child.reduceOption) := by
  rw [set_decomp (some q) hi]
  conv_rhs => rw [child_decomp hi hnone]
  rw [List.reduceOption_append, List.reduceOption_append]
  rw [List.reduceOption_cons_of_some, List.reduceOption_cons_of_none]
  exact List.perm_middle

theorem fillPure_values : ∀ (idxs : List ℕ) (child : List (Option ℕ))
    (queue : List ℕ), idxs.Nodup → (∀ i ∈ idxs, i < child.length) →
    idxs.countP (fun i => decide (child.getD i none = none)) ≤ queue.length →
    List.Perm (fillPure child idxs queue).reduceOption
      (child.reduceOption ++
        queue.take (idxs.countP (fun i => decide (child.getD i none = none)))) := by
  intro idxs
  induction idxs with
  | nil => intro child queue _ _ _; simp [fillPure]
  | cons i rest ih =>
    intro child queue hnd hbound hcount
    rcases List.nodup_cons.mp hnd with ⟨hi_rest, hrestnd⟩
    have hi : i < child.length := hbound i (List.mem_cons_self i rest)
    by_cases hnone : child.getD i none = none
    · have hp : (decide (child.getD i none = none)) = true := by rw [hnone]; rfl
      have hcc : (i :: rest).countP (fun j => decide (child.getD j none = none)) =
          rest.countP (fun j => decide (child.getD j none = none)) + 1 := by
        rw [List.countP_cons, hp]
        rfl
      obtain ⟨q, qs, hq⟩ : ∃ q qs, queue = q :: qs := by
        rw [hcc] at hcount
        cases queue with
        | nil => exact absurd hcount (by simp)
        | cons a b => exact ⟨a, b, rfl⟩
      subst hq
      have hstep : fillPure child (i :: rest) (q :: qs) =
          fillPure (child.set i (some q)) rest qs := by
        rw [fillPure, if_pos hnone]
        rfl
      have hgd : ∀ j ∈ rest, (child.set i (some q)).getD j none = child.getD j none :=
        fun j hj => getD_set_ne child _ none (fun he => hi_rest (he ▸ hj))
      have hcntr : rest.countP (fun j => decide (child.getD j none = none)) =
          rest.countP (fun j => decide ((child.set i (some q)).getD j none = none)) :=
        countP_congr_getD (fun j hj => (hgd j hj).symm)
      have hcount2 : rest.countP
          (fun j => decide ((child.set i (some q)).getD j none = none)) ≤ qs.length := by
        rw [hcc, List.length_cons] at hcount
        omega
      have hbound2 : ∀ j ∈ rest, j < (child.set i (some q)).length := by
        intro j hj
        have := hbound j (List.mem_cons_of_mem i hj)
        simpa using this
      have hrec := ih (child.set i (some q)) qs hrestnd hbound2 hcount2
      rw [hstep, hcc]
      have h1 : List.Perm ((child.set i (some q)).reduceOption ++
          qs.take (rest.countP (fun j => decide ((child.set i (some q)).getD j none = none))))
          ((q :: child.reduceOption) ++
          qs.take (rest.countP (fun j => decide ((child.set i (some q)).getD j none = none)))) :=
        List.Perm.append_right _ (redOpt_set_none_perm hi hnone)
      have h2 := hrec.trans h1
      rw [← hcntr] at h2
      have h3 : List.Perm
          ((q :: child.reduceOption) ++
            qs.take (rest.countP (fun j => decide (child.getD j none = none))))
          (child.reduceOption ++
            q :: qs.take (rest.countP (fun j => decide (child.getD j none = none)))) := by
        rw [List.cons_append]
        exact List.perm_middle.symm
      have htake : (q :: qs).take
          (rest.countP (fun j => decide (child.getD j none = none)) + 1) =
          q :: qs.take (rest.countP (fun j => decide (child.getD j none = none))) := rfl
      rw [htake]
      exact h2.trans h3
    · have hp : (decide (child.getD i none = none)) = false := by simpa using hnone
      have hcc : (i :: rest).countP (fun j => decide (child.getD j none = none)) =
          rest.countP (fun j => decide (child.getD j none = none)) := by
        rw [List.countP_cons, hp]
        rfl
      have hstep : fillPure child (i :: rest) queue = fillPure child rest queue := by
        rw [fillPure, if_neg hnone]
      have hcount2 : rest.countP (fun j => decide (child.getD j none = none)) ≤
          queue.length := by
        rw [hcc] at hcount
        exact hcount
      rw [hstep, hcc]
      exact ih child queue hrestnd
        (fun j hj => hbound j (List.mem_cons_of_mem i hj)) hcount2

/-! ### Ordered crossover produces a permutation -/

theorem filter_mem_perm_slice {n s e : ℕ} {p1 p2 : List ℕ}
    (h1 : List.Perm p1 (List.range n)) (h2 : List.Perm p2 (List.range n)) :
    List.Perm (p2.filter (fun x => decide (some x ∈ sliceChild p1 s e)))
      ((p1.drop s).take (e + 1 - s)) := by
  have hp1nd : p1.Nodup := h1.nodup_iff.mpr (List.nodup_range n)
  have hp2nd : p2.Nodup := h2.nodup_iff.mpr (List.nodup_range n)
  have hslnd : ((p1.drop s).take (e + 1 - s)).Nodup :=
    List.Nodup.sublist ((List.take_sublist _ _).trans (List.drop_sublist _ _)) hp1nd
  have hslsub : ∀ x ∈ (p1.drop s).take (e + 1 - s), x ∈ p2 := by
    intro x hx
    have hxp1 : x ∈ p1 :=
      ((List.take_sublist _ _).trans (List.drop_sublist _ _)).mem hx
    exact h2.mem_iff.mpr (h1.mem_iff.mp hxp1)
  have hmem : ∀ x, x ∈ p2.filter (fun x => decide (some x ∈ sliceChild p1 s e)) ↔
      x ∈ (p1.drop s).take (e + 1 - s) := by
    intro x
    rw [List.mem_filter]
    constructor
    · intro hx
      exact mem_sliceChild.mp (of_decide_eq_true hx.2)
    · intro hx
      exact ⟨hslsub x hx, decide_eq_true (mem_sliceChild.mpr hx)⟩
  have hfnd : (p2.filter (fun x => decide (some x ∈ sliceChild p1 s e))).Nodup :=
    List.Nodup.filter _ hp2nd
  exact List.Subperm.antisymm
    (List.subperm_of_subset hfnd (fun x hx => (hmem x).mp hx))
    (List.subperm_of_subset hslnd (fun x hx => (hmem x).mpr hx))
    |>.symm.symm

theorem queueOf_sliceChild_length {n s e : ℕ} {p1 p2 : List ℕ}
    (h1 : List.Perm p1 (List.range n)) (h2 : List.Perm p2 (List.range n)) :
    (queueOf (sliceChild p1 s e) p2).length =
      n - ((p1.drop s).take (e + 1 - s)).length := by
  have hsplit := List.filter_append_perm
    (fun x => decide (some x ∈ sliceChild p1 s e)) p2
  have hlen := hsplit.length_eq
  rw [List.length_append] at hlen
  have hfl := (filter_mem_perm_slice (s := s) (e := e) h1 h2).length_eq
  have hp2len : p2.length = n := by
    have := h2.length_eq
    simpa using this
  unfold queueOf
  omega

theorem countP_none_sliceChild {n s e : ℕ} {p1 : List ℕ} (hse : s ≤ e)
    (he : e < n) (hlen : p1.length = n) :
    (List.range n).countP
        (fun i => decide ((sliceChild p1 s e).getD i none = none)) =
      n - ((p1.drop s).take (e + 1 - s)).length := by
  have hchlen : (sliceChild p1 s e).length = n := by
    rw [sliceChild_length hse (hlen ▸ he)]
    exact hlen
  have := countP_range_getD (sliceChild p1 s e) (fun o => decide (o = none))
  rw [hchlen] at this
  rw [this, countP_none_eq, hchlen, redOpt_sliceChild]

theorem crossoverCore_spec {n : ℕ} {p1 p2 : List ℕ}
    (h1 : List.Perm p1 (List.range n)) (h2 : List.Perm p2 (List.range n))
    {s e : ℕ} (hse : s ≤ e) (he : e < n) :
    ∃ c, crossoverCore p1 p2 s e = .ok c ∧ c.length = n ∧
      (∀ i, s ≤ i → i ≤ e → c.getD i 0 = p1.getD i 0) ∧
      (((List.range n).filter (fun i => !decide (s ≤ i ∧ i ≤ e))).map
          (fun i => c.getD i 0) =
        p2.filter (fun x => !decide (x ∈ (p1.drop s).take (e + 1 - s)))) ∧
      List.Perm c (List.range n) := by
  have hp1len : p1.length = n := by
    have := h1.length_eq
    simpa using this
  have hp2nd : p2.Nodup := h2.nodup_iff.mpr (List.nodup_range n)
  have hchlen : (sliceChild p1 s e).length = n := by
    rw [sliceChild_length hse (hp1len ▸ he)]
    exact hp1len
  have hslice_len_le : ((p1.drop s).take (e + 1 - s)).length ≤ n := by
    simp only [List.length_take, List.length_drop]
    omega
  have hcnt := @countP_none_sliceChild n s e p1 hse he hp1len
  have hque := queueOf_sliceChild_length (s := s) (e := e) h1 h2
  have hcnt_le : (List.range n).countP
      (fun i => decide ((sliceChild p1 s e).getD i none = none)) ≤
      (queueOf (sliceChild p1 s e) p2).length := by
    omega
  have hbound : ∀ i ∈ List.range n, i < (sliceChild p1 s e).length := by
    intro i hi
    rw [hchlen]
    exact List.mem_range.mp hi
  have hfill := fillChild_eq_fillPure (List.range n) (sliceChild p1 s e) p2
    hp2nd (List.nodup_range n) hbound hcnt_le
  set fin := fillPure (sliceChild p1 s e) (List.range n)
    (queueOf (sliceChild p1 s e) p2) with hfin
  have hfinlen : fin.length = n := by
    rw [hfin, fillPure_length, hchlen]
  have htake_full : (queueOf (sliceChild p1 s e) p2).take
      ((List.range n).countP
        (fun i => decide ((sliceChild p1 s e).getD i none = none))) =
      queueOf (sliceChild p1 s e) p2 := by
    apply List.take_of_length_le
    omega
  have hvals := fillPure_values (List.range n) (sliceChild p1 s e)
    (queueOf (sliceChild p1 s e) p2) (List.nodup_range n) hbound hcnt_le
  rw [htake_full, redOpt_sliceChild, ← hfin] at hvals
  have hfl := (filter_mem_perm_slice (s := s) (e := e) h1 h2).length_eq
  have hredlen : fin.reduceOption.length = n := by
    have := hvals.length_eq
    rw [List.length_append] at this
    omega
  have hext : fin.map (fun o => o.getD 0) = fin.reduceOption :=
    map_getD_eq_reduceOption fin (by rw [hredlen, hfinlen])
  have hcore : crossoverCore p1 p2 s e = .ok (fin.map (fun o => o.getD 0)) := by
    unfold crossoverCore
    rw [hp1len, hfill]
  refine ⟨fin.map (fun o => o.getD 0), hcore, ?_, ?_, ?_, ?_⟩
  · rw [List.length_map, hfinlen]
  · intro i hsi hie
    have hin : i < n := lt_of_le_of_lt hie he
    have hmid := @sliceChild_getD_mid p1 s e i hsi hie (hp1len ▸ he)
    have hkeep := fillPure_keep_some (List.range n) (sliceChild p1 s e)
      (queueOf (sliceChild p1 s e) p2) i (p1.getD i 0) hmid
    rw [← hfin] at hkeep
    rw [getD_map_of_lt fin _ none 0 (by rw [hfinlen]; exact hin), hkeep]
    rfl
  · have hfilled := fillPure_filled (List.range n) (sliceChild p1 s e)
      (queueOf (sliceChild p1 s e) p2) (List.nodup_range n) hbound hcnt_le
    rw [htake_full, ← hfin] at hfilled
    have hpred : (List.range n).filter
        (fun i => decide ((sliceChild p1 s e).getD i none = none)) =
        (List.range n).filter (fun i => !decide (s ≤ i ∧ i ≤ e)) := by
      apply List.filter_congr
      intro i hi
      have hin : i < n := List.mem_range.mp hi
      by_cases hint : s ≤ i ∧ i ≤ e
      · rw [sliceChild_getD_mid hint.1 hint.2 (hp1len ▸ he)]
        simp [hint]
      · have hnone : (sliceChild p1 s e).getD i none = none := by
          rcases Nat.lt_or_ge i s with hlt | hge
          · exact sliceChild_getD_lt hlt
          · have hgt : e < i := by omega
            exact sliceChild_getD_gt hse hgt
        rw [hnone]
        simp [hint]
    rw [hpred] at hfilled
    have hqof : queueOf (sliceChild p1 s e) p2 =
        p2.filter (fun x => !decide (x ∈ (p1.drop s).take (e + 1 - s))) := by
      unfold queueOf
      apply List.filter_congr
      intro x _
      by_cases hm : x ∈ (p1.drop s).take (e + 1 - s)
      · simp [hm, mem_sliceChild.mpr hm]
      · have : ¬ some x ∈ sliceChild p1 s e := fun hc => hm (mem_sliceChild.mp hc)
        simp [hm, this]
    have hmapped : ((List.range n).filter (fun i => !decide (s ≤ i ∧ i ≤ e))).map
        (fun i => (fin.map (fun o => o.getD 0)).getD i 0) =
        ((List.range n).filter (fun i => !decide (s ≤ i ∧ i ≤ e))).map
        (fun i => (fin.getD i none).getD 0) := by
      apply List.map_congr_left
      intro i hi
      have hin : i < n := List.mem_range.mp (List.mem_of_mem_filter hi)
      rw [getD_map_of_lt fin _ none 0 (by rw [hfinlen]; exact hin)]
    rw [hmapped]
    have hcompose : ((List.range n).filter (fun i => !decide (s ≤ i ∧ i ≤ e))).map
        (fun i => (fin.getD i none).getD 0) =
        (((List.range n).filter (fun i => !decide (s ≤ i ∧ i ≤ e))).map
          (fun i => fin.getD i none)).map (fun o => o.getD 0) := by
      rw [List.map_map]
      rfl
    rw [hcompose, hfilled, ← hqof, List.map_map]
    have hid : ((fun o : Option ℕ => o.getD 0) ∘ some) = id := by
      funext v
      rfl
    rw [hid, List.map_id]
  · have hperm1 : List.Perm (fin.map (fun o => o.getD 0))
        ((p1.drop s).take (e + 1 - s) ++ queueOf (sliceChild p1 s e) p2) := by
      rw [hext]
      exact hvals
    have hperm2 : List.Perm ((p1.drop s).take (e + 1 - s) ++
        queueOf (sliceChild p1 s e) p2)
        (p2.filter (fun x => decide (some x ∈ sliceChild p1 s e)) ++
          queueOf (sliceChild p1 s e) p2) :=
      List.Perm.append_right _ (filter_mem_perm_slice (s := s) (e := e) h1 h2).symm
    have hperm3 : List.Perm (p2.filter (fun x => decide (some x ∈ sliceChild p1 s e)) ++
        queueOf (sliceChild p1 s e) p2) p2 :=
      List.filter_append_perm _ p2
    exact ((hperm1.trans hperm2).trans hperm3).trans h2

/-! ### Sampling bounds and tournament membership -/

theorem sample2_spec {r : ℕ → ℕ} {n k : ℕ} {se : ℕ × ℕ} {k1 : ℕ}
    (h : sample2 r n k = .ok (se, k1)) : se.1 ≤ se.2 ∧ se.2 < n := by
  unfold sample2 at h
  by_cases hn : n < 2
  · rw [if_pos hn] at h
    exact absurd h (by simp)
  · rw [if_neg hn] at h
    have hn2 : 2 ≤ n := le_of_not_lt hn
    have ha : draw r k n < n := draw_lt r k (by omega)
    have hb0 : draw r (k + 1) (n - 1) < n - 1 := draw_lt r (k + 1) (by omega)
    have hinj := Except.ok.inj h
    have hse : se = (min (draw r k n) (if draw r k n ≤ draw r (k + 1) (n - 1) then
        draw r (k + 1) (n - 1) + 1 else draw r (k + 1) (n - 1)),
        max (draw r k n) (if draw r k n ≤ draw r (k + 1) (n - 1) then
        draw r (k + 1) (n - 1) + 1 else draw r (k + 1) (n - 1))) := by
      rw [← (Prod.mk.inj hinj).1]
    have hblt : (if draw r k n ≤ draw r (k + 1) (n - 1) then
        draw r (k + 1) (n - 1) + 1 else draw r (k + 1) (n - 1)) < n := by
      by_cases hab : draw r k n ≤ draw r (k + 1) (n - 1)
      · rw [if_pos hab]; omega
      · rw [if_neg hab]; omega
    constructor
    · rw [hse]; exact min_le_max
    · rw [hse]
      simp only [max_lt_iff]
      exact ⟨ha, hblt⟩

theorem sample3_spec {r : ℕ → ℕ} {n k : ℕ} {t : ℕ × ℕ × ℕ} {k1 : ℕ}
    (h : sample3 r n k = .ok (t, k1)) :
    t.1 < n ∧ t.2.1 < n ∧ t.2.2 < n ∧ 3 ≤ n := by
  unfold sample3 at h
  by_cases hn : n < 3
  · rw [if_pos hn] at h
    exact absurd h (by simp)
  · rw [if_neg hn] at h
    have hn3 : 3 ≤ n := le_of_not_lt hn
    have ha : draw r k n < n := draw_lt r k (by omega)
    have hb0 : draw r (k + 1) (n - 1) < n - 1 := draw_lt r (k + 1) (by omega)
    have hc0 : draw r (k + 2) (n - 2) < n - 2 := draw_lt r (k + 2) (by omega)
    have hinj := Except.ok.inj h
    have ht := (Prod.mk.inj hinj).1
    set a := draw r k n with hadef
    set b0 := draw r (k + 1) (n - 1) with hb0def
    set c0 := draw r (k + 2) (n - 2) with hc0def
    set b := if a ≤ b0 then b0 + 1 else b0 with hbdef
    set c1 := if min a b ≤ c0 then c0 + 1 else c0 with hc1def
    set c := if max a b ≤ c1 then c1 + 1 else c1 with hcdef
    have hb : b < n := by
      rw [hbdef]
      by_cases hab : a ≤ b0
      · rw [if_pos hab]; omega
      · rw [if_neg hab]; omega
    have hc1lt : c1 < n - 1 := by
      rw [hc1def]
      by_cases hmc : min a b ≤ c0
      · rw [if_pos hmc]; omega
      · rw [if_neg hmc]; omega
    have hc : c < n := by
      rw [hcdef]
      by_cases hmc : max a b ≤ c1
      · rw [if_pos hmc]; omega
      · rw [if_neg hmc]; omega
    rw [← ht]
    exact ⟨ha, hb, hc, hn3⟩

theorem tournament_mem {r : ℕ → ℕ} {population : List (List ℕ)}
    {fitnesses : List ℚ} {k : ℕ} {c : List ℕ} {k1 : ℕ}
    (h : tournament_selection r population fitnesses k = .ok (c, k1)) :
    c ∈ population := by
  unfold tournament_selection at h
  cases hs : sample3 r population.length k with
  | error e => rw [hs] at h; exact absurd h (by simp)
  | ok v =>
    obtain ⟨⟨i1, i2, i3⟩, ks⟩ := v
    rcases sample3_spec hs with ⟨h1, h2, h3, hn⟩
    rw [hs] at h
    simp only at h
    have hc := (Prod.mk.inj (Except.ok.inj h)).1
    rw [← hc]
    by_cases hm1 : (population.getD i1 [], fitnesses.getD i1 0).2 <
        (population.getD i2 [], fitnesses.getD i2 0).2
    · rw [if_pos hm1]
      by_cases hm2 : (population.getD i2 [], fitnesses.getD i2 0).2 <
          (population.getD i3 [], fitnesses.getD i3 0).2
      · rw [if_pos hm2]
        exact getD_mem population [] h3
      · rw [if_neg hm2]
        exact getD_mem population [] h2
    · rw [if_neg hm1]
      by_cases hm2 : (population.getD i1 [], fitnesses.getD i1 0).2 <
          (population.getD i3 [], fitnesses.getD i3 0).2
      · rw [if_pos hm2]
        exact getD_mem population [] h3
      · rw [if_neg hm2]
        exact getD_mem population [] h1

/-! ### Mutation preserves the permutation -/

theorem mutateLoop_perm (r : ℕ → ℕ) (rate : ℚ) : ∀ (idxs : List ℕ)
    (chrom : List ℕ) (k : ℕ), (∀ i ∈ idxs, i < chrom.length) →
    List.Perm (mutateLoop r rate idxs chrom k).1 chrom := by
  intro idxs
  induction idxs with
  | nil => intro chrom k _; exact List.Perm.refl chrom
  | cons i rest ih =>
    intro chrom k hidx
    have hi : i < chrom.length := hidx i (List.mem_cons_self i rest)
    have hlen0 : 0 < chrom.length := lt_of_le_of_lt (Nat.zero_le i) hi
    rw [mutateLoop]
    by_cases hmut : randFloat r k < rate
    · rw [if_pos hmut]
      have hj : draw r (k + 1) chrom.length < chrom.length := draw_lt r (k + 1) hlen0
      have hsw := listSwap_perm chrom i (draw r (k + 1) chrom.length) hi hj
      have hidx2 : ∀ j ∈ rest, j < (listSwap chrom i (draw r (k + 1) chrom.length)).length := by
        intro j hj2
        rw [listSwap_length]
        exact hidx j (List.mem_cons_of_mem i hj2)
      exact (ih _ (k + 2) hidx2).trans hsw
    · rw [if_neg hmut]
      exact ih chrom (k + 1) (fun j hj2 => hidx j (List.mem_cons_of_mem i hj2))

theorem mutate_perm (r : ℕ → ℕ) (chrom : List ℕ) (rate : ℚ) (k : ℕ) :
    List.Perm (mutate r chrom rate k).1 chrom := by
  unfold mutate
  exact mutateLoop_perm r rate (List.range chrom.length) chrom k
    (fun i hi => List.mem_range.mp hi)

/-! ### Diversification -/

theorem diversifyAux_length (r : ℕ → ℕ) (pieces : List Img) (total : ℕ) :
    ∀ (m : ℕ) (pop : List (List ℕ)) (k : ℕ),
    (diversifyAux r pieces total m pop k).1.length = pop.length := by
  intro m
  induction m with
  | zero => intro pop k; rfl
  | succ m2 ih =>
    intro pop k
    rw [diversifyAux, ih]
    simp

theorem diversifyAux_mem (r : ℕ → ℕ) (pieces : List Img) (total : ℕ)
    (P : List ℕ → Prop) (hcreate : ∀ k2, P (create_chromosome r pieces k2).1) :
    ∀ (m : ℕ) (pop : List (List ℕ)) (k : ℕ), (∀ c ∈ pop, P c) →
    ∀ c ∈ (diversifyAux r pieces total m pop k).1, P c := by
  intro m
  induction m with
  | zero => intro pop k hpop; exact hpop
  | succ m2 ih =>
    intro pop k hpop
    rw [diversifyAux]
    apply ih
    intro c hc
    rcases List.mem_or_eq_of_mem_set hc with hmem | heq
    · exact hpop c hmem
    · rw [heq]
      exact hcreate k

theorem diversify_length (r : ℕ → ℕ) (pieces : List Img) (ps : ℕ)
    (pop : List (List ℕ)) (k : ℕ) :
    (diversify r pieces ps pop k).1.length = pop.length :=
  diversifyAux_length r pieces (ps / 2) (ps / 2) pop k

theorem diversify_mem (r : ℕ → ℕ) (pieces : List Img) (ps : ℕ)
    (pop : List (List ℕ)) (k : ℕ) (P : List ℕ → Prop)
    (hcreate : ∀ k2, P (create_chromosome r pieces k2).1) (hpop : ∀ c ∈ pop, P c) :
    ∀ c ∈ (diversify r pieces ps pop k).1, P c :=
  diversifyAux_mem r pieces (ps / 2) P hcreate (ps / 2) pop k hpop

/-! ### Elites -/

theorem elitesOf_mem {fitnesses : List ℚ} {pop : List (List ℕ)} {e : ℕ} :
    ∀ c ∈ elitesOf fitnesses pop e, c ∈ pop := by
  intro c hc
  unfold elitesOf at hc
  have hc2 : c ∈ (sortDesc (fitnesses.zip pop)).map Prod.snd := List.mem_of_mem_take hc
  rcases List.mem_map.mp hc2 with ⟨pr, hpr, hsnd⟩
  have hzip : pr ∈ fitnesses.zip pop := (sortDesc_perm _).mem_iff.mp hpr
  rw [← hsnd]
  exact (List.of_mem_zip hzip).2

theorem elitesOf_length {fitnesses : List ℚ} {pop : List (List ℕ)} {e : ℕ} :
    (elitesOf fitnesses pop e).length = min e (min fitnesses.length pop.length) := by
  unfold elitesOf
  rw [List.length_take, List.length_map, (sortDesc_perm _).length_eq, List.length_zip]

/-! ### The reproduction loop -/

theorem makeChildren_spec {r : ℕ → ℕ} {pop : List (List ℕ)} {fits : List ℚ}
    {mr : ℚ} {N : ℕ} (hpop : ∀ c ∈ pop, List.Perm c (List.range N)) :
    ∀ {cnt k children k5},
    makeChildren r pop fits mr cnt k = .ok (children, k5) →
    children.length = cnt ∧ ∀ c ∈ children, List.Perm c (List.range N) := by
  intro cnt
  induction cnt with
  | zero =>
    intro k children k5 h
    have := (Prod.mk.inj (Except.ok.inj h)).1
    rw [← this]
    exact ⟨rfl, by simp⟩
  | succ m ih =>
    intro k children k5 h
    rw [makeChildren] at h
    cases ht1 : tournament_selection r pop fits k with
    | error e => rw [ht1] at h; exact absurd h (by simp)
    | ok v1 =>
      obtain ⟨p1, k1⟩ := v1
      rw [ht1] at h
      simp only at h
      cases ht2 : tournament_selection r pop fits k1 with
      | error e => rw [ht2] at h; exact absurd h (by simp)
      | ok v2 =>
        obtain ⟨p2, k2⟩ := v2
        rw [ht2] at h
        simp only at h
        cases hx : crossover r p1 p2 k2 with
        | error e => rw [hx] at h; exact absurd h (by simp)
        | ok v3 =>
          obtain ⟨c, k3⟩ := v3
          rw [hx] at h
          simp only at h
          cases hmk : makeChildren r pop fits mr m (mutate r c mr k3).2 with
          | error e => rw [hmk] at h; exact absurd h (by simp)
          | ok v4 =>
            obtain ⟨rest, k4⟩ := v4
            rw [hmk] at h
            simp only at h
            have hpair := Except.ok.inj h
            have hch : children = (mutate r c mr k3).1 :: rest := (Prod.mk.inj hpair).1.symm
            have hp1 : List.Perm p1 (List.range N) := hpop p1 (tournament_mem ht1)
            have hp2 : List.Perm p2 (List.range N) := hpop p2 (tournament_mem ht2)
            have hcperm : List.Perm c (List.range N) := by
              unfold crossover at hx
              cases hs2 : sample2 r p1.length k2 with
              | error e => rw [hs2] at hx; exact absurd hx (by simp)
              | ok v5 =>
                obtain ⟨⟨s, e⟩, ks⟩ := v5
                rw [hs2] at hx
                simp only at hx
                rcases sample2_spec hs2 with ⟨hse, helt⟩
                have hp1len : p1.length = N := by
                  have := hp1.length_eq
                  simpa using this
                rcases crossoverCore_spec hp1 hp2 hse (hp1len ▸ helt) with
                  ⟨c2, hcore, _, _, _, hcperm2⟩
                rw [hcore] at hx
                simp only at hx
                have hc2c := (Prod.mk.inj (Except.ok.inj hx)).1
                rw [← hc2c]
                exact hcperm2
            rcases ih hmk with ⟨hrl, hrp⟩
            constructor
            · rw [hch, List.length_cons, hrl]
            · intro d hd
              rw [hch] at hd
              rcases List.mem_cons.mp hd with hd1 | hd2
              · rw [hd1]
                exact (mutate_perm r c mr k3).trans hcperm
              · exact hrp d hd2

/-! ### Inverting one successful generation step -/

theorem gaStep_ok_inv {r : ℕ → ℕ} {pieces : List Img} {oseq : List ℕ}
    {cfg : GAConfig} {st st' : GAState} {snap : Snapshot}
    (h : gaStep r pieces oseq cfg st = .ok (st', snap)) :
    ∃ bi stagPre pop2 k2 children k3,
      argmaxIdx (fitsOf pieces oseq cfg.grid_size st.population) = some bi ∧
      ((beats ((fitsOf pieces oseq cfg.grid_size st.population).getD bi 0)
          st.globalBest = true ∧
         snap.chromo = st.population.getD bi [] ∧
         snap.fitness = (fitsOf pieces oseq cfg.grid_size st.population).getD bi 0 ∧
         stagPre = 0) ∨
       (beats ((fitsOf pieces oseq cfg.grid_size st.population).getD bi 0)
          st.globalBest = false ∧
         st.globalBest = some (snap.chromo, snap.fitness) ∧
         stagPre = st.stagnation + 1)) ∧
      snap.correct = (countsOf pieces oseq cfg.grid_size st.population).getD bi 0 ∧
      ((cfg.stagnation_threshold ≤ stagPre ∧
          pop2 = (diversify r pieces cfg.population_size st.population st.rngPos).1 ∧
          k2 = (diversify r pieces cfg.population_size st.population st.rngPos).2) ∨
       (¬ cfg.stagnation_threshold ≤ stagPre ∧
          pop2 = st.population ∧ k2 = st.rngPos)) ∧
      makeChildren r pop2 (fitsOf pieces oseq cfg.grid_size st.population)
        cfg.mutation_rate
        (cfg.population_size -
          (elitesOf (fitsOf pieces oseq cfg.grid_size st.population) pop2
            cfg.elite_count).length) k2 = .ok (children, k3) ∧
      st' = ⟨(elitesOf (fitsOf pieces oseq cfg.grid_size st.population) pop2
          cfg.elite_count ++ children).set 0 snap.chromo,
        some (snap.chromo, snap.fitness),
        if cfg.stagnation_threshold ≤ stagPre then 0 else stagPre, k3⟩ := by
  rw [gaStep] at h
  cases harg : argmaxIdx (fitsOf pieces oseq cfg.grid_size st.population) with
  | none =>
    rw [harg] at h
    exact absurd h (by simp)
  | some bi =>
    rw [harg] at h
    simp only at h
    refine ⟨bi, ?_⟩
    by_cases hbeats : beats ((fitsOf pieces oseq cfg.grid_size st.population).getD bi 0)
        st.globalBest = true
    · rw [if_pos hbeats] at h
      simp only at h
      by_cases hdiv : cfg.stagnation_threshold ≤ 0
      · rw [if_pos hdiv] at h
        simp only at h
        cases hmk : makeChildren r
            (diversify r pieces cfg.population_size st.population st.rngPos).1
            (fitsOf pieces oseq cfg.grid_size st.population) cfg.mutation_rate
            (cfg.population_size -
              (elitesOf (fitsOf pieces oseq cfg.grid_size st.population)
                (diversify r pieces cfg.population_size st.population st.rngPos).1
                cfg.elite_count).length)
            (diversify r pieces cfg.population_size st.population st.rngPos).2 with
        | error e => rw [hmk] at h; exact absurd h (by simp)
        | ok v =>
          obtain ⟨children, k3⟩ := v
          rw [hmk] at h
          simp only at h
          have hpair := Except.ok.inj h
          have hst := (Prod.mk.inj hpair).1
          have hsnap := (Prod.mk.inj hpair).2
          refine ⟨0, _, _, children, k3, rfl, Or.inl ⟨hbeats, ?_, ?_, rfl⟩, ?_,
            Or.inl ⟨hdiv, rfl, rfl⟩, hmk, ?_⟩
          · rw [← hsnap]
          · rw [← hsnap]
          · rw [← hsnap]
          · rw [← hst, ← hsnap]
            rw [if_pos hdiv]
      · rw [if_neg hdiv] at h
        simp only at h
        cases hmk : makeChildren r st.population
            (fitsOf pieces oseq cfg.grid_size st.population) cfg.mutation_rate
            (cfg.population_size -
              (elitesOf (fitsOf pieces oseq cfg.grid_size st.population)
                st.population cfg.elite_count).length) st.rngPos with
        | error e => rw [hmk] at h; exact absurd h (by simp)
        | ok v =>
          obtain ⟨children, k3⟩ := v
          rw [hmk] at h
          simp only at h
          have hpair := Except.ok.inj h
          have hst := (Prod.mk.inj hpair).1
          have hsnap := (Prod.mk.inj hpair).2
          refine ⟨0, _, _, children, k3, rfl, Or.inl ⟨hbeats, ?_, ?_, rfl⟩, ?_,
            Or.inr ⟨hdiv, rfl, rfl⟩, hmk, ?_⟩
          · rw [← hsnap]
          · rw [← hsnap]
          · rw [← hsnap]
          · rw [← hst, ← hsnap]
            rw [if_neg hdiv]
    · have hbeats2 : beats ((fitsOf pieces oseq cfg.grid_size st.population).getD bi 0)
          st.globalBest = false := by
        cases hb : beats ((fitsOf pieces oseq cfg.grid_size st.population).getD bi 0)
            st.globalBest
        · rfl
        · exact absurd hb hbeats
      rw [if_neg (by rw [hbeats2]; exact Bool.false_ne_true)] at h
      simp only at h
      cases hgb : st.globalBest with
      | none =>
        exfalso
        rw [hgb] at hbeats
        exact hbeats rfl
      | some gbp =>
        rw [hgb] at h
        rw [hgb] at hbeats2
        simp only at h
        by_cases hdiv : cfg.stagnation_threshold ≤ st.stagnation + 1
        · rw [if_pos hdiv] at h
          simp only at h
          cases hmk : makeChildren r
              (diversify r pieces cfg.population_size st.population st.rngPos).1
              (fitsOf pieces oseq cfg.grid_size st.population) cfg.mutation_rate
              (cfg.population_size -
                (elitesOf (fitsOf pieces oseq cfg.grid_size st.population)
                  (diversify r pieces cfg.population_size st.population st.rngPos).1
                  cfg.elite_count).length)
              (diversify r pieces cfg.population_size st.population st.rngPos).2 with
          | error e => rw [hmk] at h; exact absurd h (by simp)
          | ok v =>
            obtain ⟨children, k3⟩ := v
            rw [hmk] at h
            simp only at h
            have hpair := Except.ok.inj h
            have hst := (Prod.mk.inj hpair).1
            have hsnap := (Prod.mk.inj hpair).2
            have hchromo : snap.chromo = gbp.1 := by rw [← hsnap]
            have hfit : snap.fitness = gbp.2 := by rw [← hsnap]
            refine ⟨st.stagnation + 1, _, _, children, k3, rfl,
              Or.inr ⟨hbeats2, ?_, rfl⟩, ?_, Or.inl ⟨hdiv, rfl, rfl⟩, hmk, ?_⟩
            · rw [hchromo, hfit]
            · rw [← hsnap]
            · rw [← hst, ← hsnap]
              rw [if_pos hdiv]
        · rw [if_neg hdiv] at h
          simp only at h
          cases hmk : makeChildren r st.population
              (fitsOf pieces oseq cfg.grid_size st.population) cfg.mutation_rate
              (cfg.population_size -
                (elitesOf (fitsOf pieces oseq cfg.grid_size st.population)
                  st.population cfg.elite_count).length) st.rngPos with
          | error e => rw [hmk] at h; exact absurd h (by simp)
          | ok v =>
            obtain ⟨children, k3⟩ := v
            rw [hmk] at h
            simp only at h
            have hpair := Except.ok.inj h
            have hst := (Prod.mk.inj hpair).1
            have hsnap := (Prod.mk.inj hpair).2
            have hchromo : snap.chromo = gbp.1 := by rw [← hsnap]
            have hfit : snap.fitness = gbp.2 := by rw [← hsnap]
            refine ⟨st.stagnation + 1, _, _, children, k3, rfl,
              Or.inr ⟨hbeats2, ?_, rfl⟩, ?_, Or.inr ⟨hdiv, rfl, rfl⟩, hmk, ?_⟩
            · rw [hchromo, hfit]
            · rw [← hsnap]
            · rw [← hst, ← hsnap]
              rw [if_neg hdiv]

/-! ### The master invariant of one generation -/

theorem fitsOf_getD {pieces : List Img} {oseq : List ℕ} {g : ℕ}
    {pop : List (List ℕ)} {i : ℕ} (h : i < pop.length) :
    (fitsOf pieces oseq g pop).getD i 0 =
      (calculate_fitness (pop.getD i []) pieces oseq g).1 := by
  unfold fitsOf
  rw [getD_map_of_lt pop _ [] 0 h]

theorem countsOf_getD {pieces : List Img} {oseq : List ℕ} {g : ℕ}
    {pop : List (List ℕ)} {i : ℕ} (h : i < pop.length) :
    (countsOf pieces oseq g pop).getD i 0 =
      (calculate_fitness (pop.getD i []) pieces oseq g).2.count true := by
  unfold countsOf
  rw [getD_map_of_lt pop _ [] 0 h]

theorem fitsOf_length (pieces : List Img) (oseq : List ℕ) (g : ℕ)
    (pop : List (List ℕ)) : (fitsOf pieces oseq g pop).length = pop.length := by
  unfold fitsOf
  rw [List.length_map]

theorem gaStep_master {r : ℕ → ℕ} {pieces : List Img} {oseq : List ℕ}
    {cfg : GAConfig} {st st' : GAState} {snap : Snapshot}
    (h : gaStep r pieces oseq cfg st = .ok (st', snap))
    (hpop : ∀ c ∈ st.population, List.Perm c (List.range pieces.length))
    (hlen : st.population.length = cfg.population_size)
    (hgb : ∀ p : List ℕ × ℚ, st.globalBest = some p →
      List.Perm p.1 (List.range pieces.length) ∧
      p.2 = (calculate_fitness p.1 pieces oseq cfg.grid_size).1 ∧
      st.population.getD 0 [] = p.1) :
    (∀ c ∈ st'.population, List.Perm c (List.range pieces.length)) ∧
    st'.population.length = cfg.population_size ∧
    (∀ p : List ℕ × ℚ, st'.globalBest = some p →
      List.Perm p.1 (List.range pieces.length) ∧
      p.2 = (calculate_fitness p.1 pieces oseq cfg.grid_size).1 ∧
      st'.population.getD 0 [] = p.1) ∧
    List.Perm snap.chromo (List.range pieces.length) ∧
    snap.fitness = (calculate_fitness snap.chromo pieces oseq cfg.grid_size).1 ∧
    snap.correct = (calculate_fitness snap.chromo pieces oseq cfg.grid_size).2.count true ∧
    (∀ p : List ℕ × ℚ, st.globalBest = some p → p.2 ≤ snap.fitness) ∧
    st'.globalBest = some (snap.chromo, snap.fitness) := by
  obtain ⟨bi, stagPre, pop2, k2, children, k3, harg, hcase, hcorrect, hdiv, hmk, hst⟩ :=
    gaStep_ok_inv h
  have hbiF : bi < (fitsOf pieces oseq cfg.grid_size st.population).length :=
    argmaxIdx_lt harg
  have hbip : bi < st.population.length := by
    rw [fitsOf_length] at hbiF
    exact hbiF
  have hps_pos : 0 < cfg.population_size := by
    rw [← hlen]
    exact lt_of_le_of_lt (Nat.zero_le bi) hbip
  have hpop0 : 0 < st.population.length := lt_of_le_of_lt (Nat.zero_le bi) hbip
  have hpop2 : ∀ c ∈ pop2, List.Perm c (List.range pieces.length) := by
    rcases hdiv with ⟨_, hpe, _⟩ | ⟨_, hpe, _⟩
    · rw [hpe]
      exact diversify_mem r pieces cfg.population_size st.population st.rngPos _
        (fun k4 => create_chromosome_perm r pieces k4) hpop
    · rw [hpe]
      exact hpop
  have hpop2len : pop2.length = cfg.population_size := by
    rcases hdiv with ⟨_, hpe, _⟩ | ⟨_, hpe, _⟩
    · rw [hpe, diversify_length]
      exact hlen
    · rw [hpe]
      exact hlen
  have hFbi : (fitsOf pieces oseq cfg.grid_size st.population).getD bi 0 =
      (calculate_fitness (st.population.getD bi []) pieces oseq cfg.grid_size).1 :=
    fitsOf_getD hbip
  have hsnapMain : List.Perm snap.chromo (List.range pieces.length) ∧
      snap.fitness = (calculate_fitness snap.chromo pieces oseq cfg.grid_size).1 ∧
      snap.correct =
        (calculate_fitness snap.chromo pieces oseq cfg.grid_size).2.count true := by
    rcases hcase with ⟨hbeats, hchromo, hfit, _⟩ | ⟨hbeats, hgbsome, _⟩
    · refine ⟨?_, ?_, ?_⟩
      · rw [hchromo]
        exact hpop _ (getD_mem st.population [] hbip)
      · rw [hfit, hchromo]
        exact hFbi
      · rw [hcorrect, hchromo]
        exact countsOf_getD hbip
    · rcases hgb _ hgbsome with ⟨hgbperm, hgbfit, hgb0⟩
      have hF0 : (fitsOf pieces oseq cfg.grid_size st.population).getD 0 0 =
          snap.fitness := by
        rw [fitsOf_getD hpop0, hgb0, ← hgbfit]
      have hble : (fitsOf pieces oseq cfg.grid_size st.population).getD bi 0 ≤
          snap.fitness := by
        rw [hgbsome] at hbeats
        simp only [beats] at hbeats
        exact le_of_not_lt (of_decide_eq_false hbeats)
      have hbi0 : bi = 0 := by
        apply argmaxIdx_first harg
        intro j hj
        have hmax := argmaxIdx_max harg j hj
        rw [hF0]
        exact le_trans hmax hble
      refine ⟨hgbperm, hgbfit, ?_⟩
      rw [hcorrect, hbi0, countsOf_getD hpop0, hgb0]
  have hmono : ∀ p : List ℕ × ℚ, st.globalBest = some p → p.2 ≤ snap.fitness := by
    intro p hpsome
    rcases hcase with ⟨hbeats, _, hfit, _⟩ | ⟨_, hgbsome, _⟩
    · rw [hpsome] at hbeats
      simp only [beats] at hbeats
      rw [hfit]
      exact le_of_lt (of_decide_eq_true hbeats)
    · rw [hpsome] at hgbsome
      have := Option.some.inj hgbsome
      rw [this]
  have happlen : ((elitesOf (fitsOf pieces oseq cfg.grid_size st.population) pop2
      cfg.elite_count) ++ children).length = cfg.population_size := by
    rcases makeChildren_spec hpop2 hmk with ⟨hclen, _⟩
    rw [List.length_append, hclen, elitesOf_length, fitsOf_length, hlen, hpop2len]
    have hmin : min cfg.elite_count
        (min cfg.population_size cfg.population_size) ≤ cfg.population_size := by
      simp
    omega
  refine ⟨?_, ?_, ?_, hsnapMain.1, hsnapMain.2.1, hsnapMain.2.2, hmono, ?_⟩
  · intro c hc
    rw [hst] at hc
    simp only at hc
    rcases List.mem_or_eq_of_mem_set hc with hmem | heq
    · rcases List.mem_append.mp hmem with hel | hch
      · exact hpop2 c (elitesOf_mem c hel)
      · exact (makeChildren_spec hpop2 hmk).2 c hch
    · rw [heq]
      exact hsnapMain.1
  · rw [hst]
    simp only [List.length_set]
    exact happlen
  · intro p hpsome
    rw [hst] at hpsome
    simp only at hpsome
    have hp : p = (snap.chromo, snap.fitness) := (Option.some.inj hpsome).symm
    rw [hp]
    refine ⟨hsnapMain.1, hsnapMain.2.1, ?_⟩
    rw [hst]
    simp only
    rw [getD_set_self _ snap.chromo [] (by rw [happlen]; exact hps_pos)]
  · rw [hst]

/-! ### The generation loop and the initial population -/

theorem initPopulation_length (r : ℕ → ℕ) (pieces : List Img) :
    ∀ (m k : ℕ), (initPopulation r pieces m k).1.length = m := by
  intro m
  induction m with
  | zero => intro k; rfl
  | succ m2 ih =>
    intro k
    rw [initPopulation]
    simp only [List.length_cons]
    rw [ih]

theorem initPopulation_mem (r : ℕ → ℕ) (pieces : List Img) :
    ∀ (m k : ℕ), ∀ c ∈ (initPopulation r pieces m k).1,
    List.Perm c (List.range pieces.length) := by
  intro m
  induction m with
  | zero => intro k c hc; exact absurd hc (by simp [initPopulation])
  | succ m2 ih =>
    intro k c hc
    rw [initPopulation] at hc
    rcases List.mem_cons.mp hc with hh | ht
    · rw [hh]
      exact create_chromosome_perm r pieces k
    · exact ih _ c ht

theorem gaLoop_props {r : ℕ → ℕ} {pieces : List Img} {oseq : List ℕ}
    {cfg : GAConfig} : ∀ (g : ℕ) (st : GAState) (snaps : List Snapshot),
    gaLoop r pieces oseq cfg g st = .ok snaps →
    (∀ c ∈ st.population, List.Perm c (List.range pieces.length)) →
    st.population.length = cfg.population_size →
    (∀ p : List ℕ × ℚ, st.globalBest = some p →
      List.Perm p.1 (List.range pieces.length) ∧
      p.2 = (calculate_fitness p.1 pieces oseq cfg.grid_size).1 ∧
      st.population.getD 0 [] = p.1) →
    (∀ s ∈ snaps, List.Perm s.chromo (List.range pieces.length) ∧
      s.fitness = (calculate_fitness s.chromo pieces oseq cfg.grid_size).1 ∧
      s.correct =
        (calculate_fitness s.chromo pieces oseq cfg.grid_size).2.count true) ∧
    (∀ p : List ℕ × ℚ, st.globalBest = some p → ∀ s ∈ snaps, p.2 ≤ s.fitness) ∧
    List.Pairwise (fun a b => a.fitness ≤ b.fitness) snaps := by
  intro g
  induction g with
  | zero =>
    intro st snaps h _ _ _
    have hs : snaps = [] := (Except.ok.inj h).symm
    rw [hs]
    exact ⟨by simp, fun p _ s hs2 => absurd hs2 (by simp), by simp⟩
  | succ g2 ih =>
    intro st snaps h hpop hlen hgb
    rw [gaLoop] at h
    cases hstep : gaStep r pieces oseq cfg st with
    | error e => rw [hstep] at h; exact absurd h (by simp)
    | ok v =>
      obtain ⟨st1, snap⟩ := v
      rw [hstep] at h
      simp only at h
      cases hloop : gaLoop r pieces oseq cfg g2 st1 with
      | error e => rw [hloop] at h; exact absurd h (by simp)
      | ok rest =>
        rw [hloop] at h
        simp only at h
        have hsnaps : snaps = snap :: rest := (Except.ok.inj h).symm
        rcases gaStep_master hstep hpop hlen hgb with
          ⟨hpop1, hlen1, hgb1, hsperm, hsfit, hscnt, hmono, hgbnew⟩
        rcases ih st1 rest hloop hpop1 hlen1 hgb1 with ⟨hall, hlow, hpw⟩
        rw [hsnaps]
        refine ⟨?_, ?_, ?_⟩
        · intro s hs2
          rcases List.mem_cons.mp hs2 with hh | ht
          · rw [hh]
            exact ⟨hsperm, hsfit, hscnt⟩
          · exact hall s ht
        · intro p hpsome s hs2
          rcases List.mem_cons.mp hs2 with hh | ht
          · rw [hh]
            exact hmono p hpsome
          · exact le_trans (hmono p hpsome)
              (hlow (snap.chromo, snap.fitness) hgbnew s ht)
        · refine List.pairwise_cons.mpr ⟨?_, hpw⟩
          intro s hs2
          exact hlow (snap.chromo, snap.fitness) hgbnew s hs2

/-! ### The row-major index grids of split_image -/

theorem flatMap_range_map_length {α : Type} (F : ℕ → ℕ → α) (g : ℕ) :
    ∀ n : ℕ, ((List.range n).flatMap (fun i => (List.range g).map (F i))).length =
      n * g := by
  intro n
  induction n generalizing F with
  | zero => simp
  | succ m ih =>
    rw [List.range_succ_eq_map, List.flatMap_cons, List.flatMap_map]
    rw [List.length_append, List.length_map, List.length_range]
    rw [ih (fun i => F (Nat.succ i))]
    ring

theorem flatMap_range_map_getD {α : Type} (d : α) :
    ∀ (n : ℕ) (F : ℕ → ℕ → α) (g q rr : ℕ), q < n → rr < g →
    ((List.range n).flatMap (fun i => (List.range g).map (F i))).getD (q * g + rr) d =
      F q rr := by
  intro n
  induction n with
  | zero => intro F g q rr hq _; exact absurd hq (by simp)
  | succ m ih =>
    intro F g q rr hq hr
    rw [List.range_succ_eq_map, List.flatMap_cons, List.flatMap_map]
    cases q with
    | zero =>
      rw [Nat.zero_mul, Nat.zero_add]
      rw [getD_append_left _ _ _ (by simpa using hr)]
      rw [getD_map_of_lt _ _ 0 _ (by simpa using hr), getD_range hr]
    | succ q2 =>
      have hlen : ((List.range g).map (F 0)).length = g := by simp
      have hge : ((List.range g).map (F 0)).length ≤ (q2 + 1) * g + rr := by
        rw [hlen]
        have : g ≤ (q2 + 1) * g := Nat.le_mul_of_pos_left g (Nat.succ_pos q2)
        omega
      rw [getD_append_right _ _ _ hge, hlen]
      have hidx : (q2 + 1) * g + rr - g = q2 * g + rr := by
        have : (q2 + 1) * g = q2 * g + g := by ring
        omega
      rw [hidx]
      have := ih (fun i => F (Nat.succ i)) g q2 rr (by omega) hr
      simpa [Function.comp] using this

theorem flatMap_range_grid (g : ℕ) : ∀ n : ℕ,
    ((List.range n).flatMap (fun i => (List.range g).map (fun j => i * g + j))) =
      List.range (n * g) := by
  intro n
  induction n with
  | zero => simp
  | succ m ih2 =>
    rw [List.range_succ, List.flatMap_append, ih2, List.flatMap_cons]
    rw [List.flatMap_nil, List.append_nil]
    have : (m + 1) * g = m * g + g := by ring
    rw [this, List.range_add]

theorem split_image_ok {resize : Img → ℕ → ℕ → Img} {img : Img} {g : ℕ}
    {pieces : List Img} {oseq : List ℕ}
    (h : split_image resize img g = .ok (pieces, oseq)) :
    g ≠ 0 ∧ oseq = List.range (g * g) ∧ pieces.length = g * g := by
  unfold split_image at h
  by_cases hg : g = 0
  · rw [if_pos hg] at h
    exact absurd h (by simp)
  · rw [if_neg hg] at h
    have hpair := (Prod.mk.inj (Except.ok.inj h))
    refine ⟨hg, ?_, ?_⟩
    · rw [← hpair.2]
      exact flatMap_range_grid g g
    · rw [← hpair.1]
      exact flatMap_range_map_length _ g g

/-! ### Counting matches -/

theorem count_true_map (l : List ℕ) (f : ℕ → Bool) :
    (l.map f).count true = (l.filter f).length := by
  rw [List.count, List.countP_map]
  rw [← List.countP_eq_length_filter]
  apply List.countP_congr
  intro x _
  simp [Function.comp]

/-! ### Which errors each operation can raise -/

theorem findNonMem_error_kind {child : List (Option ℕ)} : ∀ {l : List ℕ} {e : PyErr},
    findNonMem child l = .error e → e = .indexError := by
  intro l
  induction l with
  | nil => intro e h; exact (Except.error.inj h).symm
  | cons x rest ih =>
    intro e h
    rw [findNonMem] at h
    by_cases hm : some x ∈ child
    · rw [if_pos hm] at h
      exact ih h
    · rw [if_neg hm] at h
      exact absurd h (by simp)

theorem fillChild_error_kind {child : List (Option ℕ)} {p2rest : List ℕ} :
    ∀ {idxs : List ℕ} {e : PyErr},
    fillChild child p2rest idxs = .error e → e = .indexError := by
  intro idxs
  induction idxs generalizing child p2rest with
  | nil => intro e h; exact absurd h (by simp [fillChild])
  | cons i rest ih =>
    intro e h
    rw [fillChild] at h
    cases hnone : child.getD i none with
    | some v =>
      rw [hnone] at h
      simp only at h
      exact ih h
    | none =>
      rw [hnone] at h
      simp only at h
      cases hf : findNonMem child p2rest with
      | error e2 =>
        rw [hf] at h
        simp only at h
        have he2 := findNonMem_error_kind hf
        rw [← (Except.error.inj h), he2]
      | ok v =>
        obtain ⟨x, p2post⟩ := v
        rw [hf] at h
        simp only at h
        exact ih h

theorem crossover_error_kind {r : ℕ → ℕ} {p1 p2 : List ℕ} {k : ℕ} {e : PyErr}
    (h : crossover r p1 p2 k = .error e) :
    e = .valueError ∨ e = .indexError := by
  unfold crossover at h
  cases hs : sample2 r p1.length k with
  | error e2 =>
    rw [hs] at h
    unfold sample2 at hs
    by_cases hn : p1.length < 2
    · rw [if_pos hn] at hs
      have := (Except.error.inj hs).symm
      rw [← (Except.error.inj h), ← this]
      exact Or.inl rfl
    · rw [if_neg hn] at hs
      exact absurd hs (by simp)
  | ok v =>
    obtain ⟨⟨s2, e2⟩, ks⟩ := v
    rw [hs] at h
    simp only at h
    cases hc : crossoverCore p1 p2 s2 e2 with
    | error e3 =>
      rw [hc] at h
      simp only at h
      unfold crossoverCore at hc
      cases hf : fillChild (sliceChild p1 s2 e2) p2 (List.range p1.length) with
      | error e4 =>
        rw [hf] at hc
        simp only at hc
        have := fillChild_error_kind hf
        rw [← (Except.error.inj h), ← (Except.error.inj hc), this]
        exact Or.inr rfl
      | ok v2 =>
        rw [hf] at hc
        exact absurd hc (by simp)
    | ok v2 =>
      rw [hc] at h
      exact absurd h (by simp)

theorem tournament_error_kind {r : ℕ → ℕ} {pop : List (List ℕ)} {fits : List ℚ}
    {k : ℕ} {e : PyErr} (h : tournament_selection r pop fits k = .error e) :
    e = .valueError := by
  unfold tournament_selection at h
  cases hs : sample3 r pop.length k with
  | error e2 =>
    rw [hs] at h
    unfold sample3 at hs
    by_cases hn : pop.length < 3
    · rw [if_pos hn] at hs
      have := (Except.error.inj hs).symm
      rw [← (Except.error.inj h), ← this]
    · rw [if_neg hn] at hs
      exact absurd hs (by simp)
  | ok v =>
    obtain ⟨⟨i1, i2, i3⟩, ks⟩ := v
    rw [hs] at h
    exact absurd h (by simp)

theorem makeChildren_error_kind {r : ℕ → ℕ} {pop : List (List ℕ)} {fits : List ℚ}
    {mr : ℚ} : ∀ {cnt k : ℕ} {e : PyErr},
    makeChildren r pop fits mr cnt k = .error e →
    e = .valueError ∨ e = .indexError := by
  intro cnt
  induction cnt with
  | zero => intro k e h; exact absurd h (by simp [makeChildren])
  | succ m ih =>
    intro k e h
    rw [makeChildren] at h
    cases ht1 : tournament_selection r pop fits k with
    | error e2 =>
      rw [ht1] at h
      simp only at h
      rw [← (Except.error.inj h)]
      exact Or.inl (tournament_error_kind ht1)
    | ok v1 =>
      obtain ⟨p1, k1⟩ := v1
      rw [ht1] at h
      simp only at h
      cases ht2 : tournament_selection r pop fits k1 with
      | error e2 =>
        rw [ht2] at h
        simp only at h
        rw [← (Except.error.inj h)]
        exact Or.inl (tournament_error_kind ht2)
      | ok v2 =>
        obtain ⟨p2, k2⟩ := v2
        rw [ht2] at h
        simp only at h
        cases hx : crossover r p1 p2 k2 with
        | error e2 =>
          rw [hx] at h
          simp only at h
          rw [← (Except.error.inj h)]
          exact crossover_error_kind hx
        | ok v3 =>
          obtain ⟨c, k3⟩ := v3
          rw [hx] at h
          simp only at h
          cases hmk : makeChildren r pop fits mr m (mutate r c mr k3).2 with
          | error e2 =>
            rw [hmk] at h
            simp only at h
            rw [← (Except.error.inj h)]
            exact ih hmk
          | ok v4 =>
            obtain ⟨rest, k4⟩ := v4
            rw [hmk] at h
            exact absurd h (by simp)

theorem gaStep_error_kind {r : ℕ → ℕ} {pieces : List Img} {oseq : List ℕ}
    {cfg : GAConfig} {st : GAState} {e : PyErr}
    (h : gaStep r pieces oseq cfg st = .error e) :
    e = .valueError ∨ e = .indexError := by
  rw [gaStep] at h
  cases harg : argmaxIdx (fitsOf pieces oseq cfg.grid_size st.population) with
  | none =>
    rw [harg] at h
    simp only at h
    rw [← (Except.error.inj h)]
    exact Or.inl rfl
  | some bi =>
    rw [harg] at h
    simp only at h
    by_cases hbeats : beats ((fitsOf pieces oseq cfg.grid_size st.population).getD bi 0)
        st.globalBest = true
    · rw [if_pos hbeats] at h
      simp only at h
      by_cases hdiv : cfg.stagnation_threshold ≤ 0
      · rw [if_pos hdiv] at h
        simp only at h
        cases hmk : makeChildren r
            (diversify r pieces cfg.population_size st.population st.rngPos).1
            (fitsOf pieces oseq cfg.grid_size st.population) cfg.mutation_rate
            (cfg.population_size -
              (elitesOf (fitsOf pieces oseq cfg.grid_size st.population)
                (diversify r pieces cfg.population_size st.population st.rngPos).1
                cfg.elite_count).length)
            (diversify r pieces cfg.population_size st.population st.rngPos).2 with
        | error e2 =>
          rw [hmk] at h
          simp only at h
          rw [← (Except.error.inj h)]
          exact makeChildren_error_kind hmk
        | ok v =>
          rw [hmk] at h
          obtain ⟨children, k3⟩ := v
          exact absurd h (by simp)
      · rw [if_neg hdiv] at h
        simp only at h
        cases hmk : makeChildren r st.population
            (fitsOf pieces oseq cfg.grid_size st.population) cfg.mutation_rate
            (cfg.population_size -
              (elitesOf (fitsOf pieces oseq cfg.grid_size st.population)
                st.population cfg.elite_count).length) st.rngPos with
        | error e2 =>
          rw [hmk] at h
          simp only at h
          rw [← (Except.error.inj h)]
          exact makeChildren_error_kind hmk
        | ok v =>
          rw [hmk] at h
          obtain ⟨children, k3⟩ := v
          exact absurd h (by simp)
    · have hbeats2 : beats ((fitsOf pieces oseq cfg.grid_size st.population).getD bi 0)
          st.globalBest = false := by
        cases hb : beats ((fitsOf pieces oseq cfg.grid_size st.population).getD bi 0)
            st.globalBest
        · rfl
        · exact absurd hb hbeats
      rw [if_neg (by rw [hbeats2]; exact Bool.false_ne_true)] at h
      simp only at h
      cases hgb : st.globalBest with
      | none =>
        exfalso
        rw [hgb] at hbeats
        exact hbeats rfl
      | some gbp =>
        rw [hgb] at h
        simp only at h
        by_cases hdiv : cfg.stagnation_threshold ≤ st.stagnation + 1
        · rw [if_pos hdiv] at h
          simp only at h
          cases hmk : makeChildren r
              (diversify r pieces cfg.population_size st.population st.rngPos).1
              (fitsOf pieces oseq cfg.grid_size st.population) cfg.mutation_rate
              (cfg.population_size -
                (elitesOf (fitsOf pieces oseq cfg.grid_size st.population)
                  (diversify r pieces cfg.population_size st.population st.rngPos).1
                  cfg.elite_count).length)
              (diversify r pieces cfg.population_size st.population st.rngPos).2 with
          | error e2 =>
            rw [hmk] at h
            simp only at h
            rw [← (Except.error.inj h)]
            exact makeChildren_error_kind hmk
          | ok v =>
            rw [hmk] at h
            obtain ⟨children, k3⟩ := v
            exact absurd h (by simp)
        · rw [if_neg hdiv] at h
          simp only at h
          cases hmk : makeChildren r st.population
              (fitsOf pieces oseq cfg.grid_size st.population) cfg.mutation_rate
              (cfg.population_size -
                (elitesOf (fitsOf pieces oseq cfg.grid_size st.population)
                  st.population cfg.elite_count).length) st.rngPos with
          | error e2 =>
            rw [hmk] at h
            simp only at h
            rw [← (Except.error.inj h)]
            exact makeChildren_error_kind hmk
          | ok v =>
            rw [hmk] at h
            obtain ⟨children, k3⟩ := v
            exact absurd h (by simp)

theorem gaLoop_error_kind {r : ℕ → ℕ} {pieces : List Img} {oseq : List ℕ}
    {cfg : GAConfig} : ∀ {g : ℕ} {st : GAState} {e : PyErr},
    gaLoop r pieces oseq cfg g st = .error e → e = .valueError ∨ e = .indexError := by
  intro g
  induction g with
  | zero => intro st e h; exact absurd h (by simp [gaLoop])
  | succ m ih =>
    intro st e h
    rw [gaLoop] at h
    cases hstep : gaStep r pieces oseq cfg st with
    | error e2 =>
      rw [hstep] at h
      simp only at h
      rw [← (Except.error.inj h)]
      exact gaStep_error_kind hstep
    | ok v =>
      obtain ⟨st1, snap⟩ := v
      rw [hstep] at h
      simp only at h
      cases hloop : gaLoop r pieces oseq cfg m st1 with
      | error e2 =>
        rw [hloop] at h
        simp only at h
        rw [← (Except.error.inj h)]
        exact ih hloop
      | ok rest =>
        rw [hloop] at h
        exact absurd h (by simp)

/-! ### Fitness bounds -/

theorem edgeDiffs_bounds {p1 p2 : Img} (h1 : PxBound p1) (h2 : PxBound p2)
    (d : Dir) : ∀ x ∈ edgeDiffs p1 p2 d, 0 ≤ x ∧ x ≤ 255 := by
  intro x hx
  have hmem : ∃ a b : ℤ, x = |a - b| ∧ (0 ≤ a ∧ a ≤ 255) ∧ (0 ≤ b ∧ b ≤ 255) := by
    cases d with
    | right =>
      simp only [edgeDiffs] at hx
      rcases List.mem_flatMap.mp hx with ⟨y, _, hy2⟩
      rcases List.mem_map.mp hy2 with ⟨q, hq, hqx⟩
      exact ⟨q.1, q.2, hqx.symm, h1 _ _ _ (List.of_mem_zip hq).1,
        h2 _ _ _ (List.of_mem_zip hq).2⟩
    | bottom =>
      simp only [edgeDiffs] at hx
      rcases List.mem_flatMap.mp hx with ⟨y, _, hy2⟩
      rcases List.mem_map.mp hy2 with ⟨q, hq, hqx⟩
      exact ⟨q.1, q.2, hqx.symm, h1 _ _ _ (List.of_mem_zip hq).1,
        h2 _ _ _ (List.of_mem_zip hq).2⟩
  rcases hmem with ⟨a, b, hab, ⟨ha0, ha255⟩, ⟨hb0, hb255⟩⟩
  rw [hab]
  exact ⟨abs_nonneg _, abs_le.mpr ⟨by omega, by omega⟩⟩

theorem int_sum_bounds {l : List ℤ} (h : ∀ x ∈ l, 0 ≤ x ∧ x ≤ 255) :
    0 ≤ l.sum ∧ l.sum ≤ 255 * l.length := by
  induction l with
  | nil => exact ⟨le_refl 0, by simp⟩
  | cons x xs ih =>
    rcases h x (List.mem_cons_self x xs) with ⟨hx0, hx255⟩
    rcases ih (fun y hy => h y (List.mem_cons_of_mem x hy)) with ⟨hs0, hs255⟩
    constructor
    · rw [List.sum_cons]
      omega
    · rw [List.sum_cons, List.length_cons]
      have : (255 : ℤ) * (xs.length + 1) = 255 * xs.length + 255 := by ring
      omega

theorem compare_edges_bounds {p1 p2 : Img} (h1 : PxBound p1) (h2 : PxBound p2)
    (d : Dir) : 0 ≤ compare_edges p1 p2 d ∧ compare_edges p1 p2 d ≤ 1 := by
  unfold compare_edges
  dsimp only
  rcases int_sum_bounds (edgeDiffs_bounds h1 h2 d) with ⟨hs0, hs255⟩
  by_cases hlen : (edgeDiffs p1 p2 d).length = 0
  · rw [hlen]
    norm_num
  · have hlpos : 0 < ((edgeDiffs p1 p2 d).length : ℚ) := by
      have : 0 < (edgeDiffs p1 p2 d).length := Nat.pos_of_ne_zero hlen
      exact_mod_cast this
    have hq0 : (0 : ℚ) ≤ ((edgeDiffs p1 p2 d).sum : ℚ) := by exact_mod_cast hs0
    have hq255 : ((edgeDiffs p1 p2 d).sum : ℚ) ≤
        255 * ((edgeDiffs p1 p2 d).length : ℚ) := by exact_mod_cast hs255
    have hmean0 : (0 : ℚ) ≤ ((edgeDiffs p1 p2 d).sum : ℚ) /
        ((edgeDiffs p1 p2 d).length : ℚ) := div_nonneg hq0 (le_of_lt hlpos)
    have hmean255 : ((edgeDiffs p1 p2 d).sum : ℚ) /
        ((edgeDiffs p1 p2 d).length : ℚ) ≤ 255 := by
      rw [div_le_iff₀ hlpos]
      linarith
    constructor
    · have : ((edgeDiffs p1 p2 d).sum : ℚ) /
          ((edgeDiffs p1 p2 d).length : ℚ) / 255 ≤ 1 := by
        rw [div_le_one (by norm_num : (0:ℚ) < 255)]
        exact hmean255
      linarith
    · have : (0:ℚ) ≤ ((edgeDiffs p1 p2 d).sum : ℚ) /
          ((edgeDiffs p1 p2 d).length : ℚ) / 255 := by positivity
      linarith

theorem getD_pxBound {pieces : List Img} (hpx : ∀ p ∈ pieces, PxBound p)
    (idx : ℕ) : PxBound (pieces.getD idx emptyImg) := by
  by_cases hlt : idx < pieces.length
  · exact hpx _ (getD_mem pieces emptyImg hlt)
  · rw [List.getD_eq_default _ _ (le_of_not_lt hlt)]
    intro x y v hv
    exact absurd hv (by simp [emptyImg])

theorem calculate_fitness_nonneg {chromo : List ℕ} {pieces : List Img}
    {oseq : List ℕ} {g : ℕ} (hpx : ∀ p ∈ pieces, PxBound p) :
    0 ≤ (calculate_fitness chromo pieces oseq g).1 := by
  unfold calculate_fitness
  simp only
  apply add_nonneg
  · apply List.sum_nonneg
    intro q hq
    rcases List.mem_map.mp hq with ⟨i, _, hqi⟩
    rw [← hqi]
    apply List.sum_nonneg
    intro q2 hq2
    rcases List.mem_map.mp hq2 with ⟨j, _, hqj⟩
    rw [← hqj]
    apply add_nonneg
    · by_cases hj : j < g - 1
      · rw [if_pos hj]
        exact (compare_edges_bounds (getD_pxBound hpx _) (getD_pxBound hpx _) _).1
      · rw [if_neg hj]
    · by_cases hi : i < g - 1
      · rw [if_pos hi]
        exact (compare_edges_bounds (getD_pxBound hpx _) (getD_pxBound hpx _) _).1
      · rw [if_neg hi]
  · positivity

/-! ### The claims -/

theorem genetic_algorithm_eq (r : ℕ → ℕ) (pieces : List Img) (oseq : List ℕ)
    (ps gens : ℕ) (mr : ℚ) (g e t : ℕ) :
    genetic_algorithm r pieces oseq ps gens mr g e t =
      gaLoop r pieces oseq ⟨ps, mr, g, e, t⟩ gens
        ⟨(initPopulation r pieces ps 0).1, none, 0, (initPopulation r pieces ps 0).2⟩ :=
  rfl

/-- Claim C5: for any two permutations of 0..N-1 with N ≥ 2 and any pair of
distinct cut points, ordered crossover copies parent1's slice between the
sorted cut points verbatim into the child, fills the remaining positions in
order with parent2's genes skipping those already present, and the result
is a valid permutation of 0..N-1 of the same length N. -/
theorem claim5_crossover_closure {N : ℕ} {p1 p2 : List ℕ} {a b : ℕ}
    (h1 : List.Perm p1 (List.range N)) (h2 : List.Perm p2 (List.range N))
    (hN : 2 ≤ N) (ha : a < N) (hb : b < N) (hab : a ≠ b) :
    ∃ c, crossoverCore p1 p2 (min a b) (max a b) = .ok c ∧
      c.length = N ∧
      (∀ i, min a b ≤ i → i ≤ max a b → c.getD i 0 = p1.getD i 0) ∧
      (((List.range N).filter (fun i => !decide (min a b ≤ i ∧ i ≤ max a b))).map
          (fun i => c.getD i 0) =
        p2.filter (fun x =>
          !decide (x ∈ (p1.drop (min a b)).take (max a b + 1 - min a b)))) ∧
      List.Perm c (List.range N) :=
  crossoverCore_spec h1 h2 min_le_max (max_lt ha hb)

/-- Witness for C5 at N = 4, parents [0,1,2,3] and [3,2,1,0], cut points 2
and 1. -/
theorem claim5_witness :
    List.Perm ([0, 1, 2, 3] : List ℕ) (List.range 4) ∧
    (∃ c, crossoverCore [0, 1, 2, 3] [3, 2, 1, 0] (min 2 1) (max 2 1) = .ok c ∧
      c.length = 4 ∧
      (∀ i, min 2 1 ≤ i → i ≤ max 2 1 → c.getD i 0 = ([0, 1, 2, 3] : List ℕ).getD i 0) ∧
      (((List.range 4).filter (fun i => !decide (min 2 1 ≤ i ∧ i ≤ max 2 1))).map
          (fun i => c.getD i 0) =
        ([3, 2, 1, 0] : List ℕ).filter (fun x =>
          !decide (x ∈ (([0, 1, 2, 3] : List ℕ).drop (min 2 1)).take (max 2 1 + 1 - min 2 1)))) ∧
      List.Perm c (List.range 4)) :=
  ⟨by decide, claim5_crossover_closure (by decide) (by decide) (by decide)
    (by decide) (by decide) (by decide)⟩

/-- Claim C4: every chromosome present in or produced by the algorithm is a
permutation of 0..N-1: the initial random chromosomes are permutations, one
generation step maps a population of permutations to a population of
permutations (covering diversification replacements, elite copies,
crossover children, mutated children and the injected global best), and
every chromosome recorded in the snapshots of a run is a permutation. -/
theorem claim4_permutation_invariant :
    (∀ (r : ℕ → ℕ) (pieces : List Img) (m k : ℕ),
      ∀ c ∈ (initPopulation r pieces m k).1, List.Perm c (List.range pieces.length)) ∧
    (∀ (r : ℕ → ℕ) (pieces : List Img) (oseq : List ℕ) (cfg : GAConfig)
        (st st' : GAState) (snap : Snapshot),
      gaStep r pieces oseq cfg st = .ok (st', snap) →
      (∀ c ∈ st.population, List.Perm c (List.range pieces.length)) →
      st.population.length = cfg.population_size →
      (∀ p : List ℕ × ℚ, st.globalBest = some p →
        List.Perm p.1 (List.range pieces.length) ∧
        p.2 = (calculate_fitness p.1 pieces oseq cfg.grid_size).1 ∧
        st.population.getD 0 [] = p.1) →
      (∀ c ∈ st'.population, List.Perm c (List.range pieces.length)) ∧
        List.Perm snap.chromo (List.range pieces.length)) ∧
    (∀ (r : ℕ → ℕ) (pieces : List Img) (oseq : List ℕ) (ps gens : ℕ) (mr : ℚ)
        (g e t : ℕ) (snaps : List Snapshot),
      genetic_algorithm r pieces oseq ps gens mr g e t = .ok snaps →
      ∀ s ∈ snaps, List.Perm s.chromo (List.range pieces.length)) := by
  refine ⟨initPopulation_mem, ?_, ?_⟩
  · intro r pieces oseq cfg st st' snap h hpop hlen hgb
    rcases gaStep_master h hpop hlen hgb with ⟨hpop1, _, _, hsperm, _⟩
    exact ⟨hpop1, hsperm⟩
  · intro r pieces oseq ps gens mr g e t snaps h s hs
    rw [genetic_algorithm_eq] at h
    rcases gaLoop_props gens _ snaps h (initPopulation_mem r pieces ps 0)
      (initPopulation_length r pieces ps 0)
      (fun p hp => Option.noConfusion hp) with ⟨hall, _, _⟩
    exact (hall s hs).1

/-- Witness for C4 on a concrete two-generation run with four identical 1×1
tiles. -/
theorem claim4_witness :
    genetic_algorithm r0 pieces4 (List.range 4) 3 2 0 2 3 20 =
      .ok [⟨[1, 2, 3, 0], 4, 0⟩, ⟨[1, 2, 3, 0], 4, 0⟩] ∧
    ∀ s ∈ [(⟨[1, 2, 3, 0], 4, 0⟩ : Snapshot), ⟨[1, 2, 3, 0], 4, 0⟩],
      List.Perm s.chromo (List.range pieces4.length) :=
  ⟨by decide, fun s hs => claim4_permutation_invariant.2.2 r0 pieces4
    (List.range 4) 3 2 0 2 3 20 _ (by decide) s hs⟩

/-- Claim C3: the global-best fitness values recorded in the snapshots are
non-decreasing in generation order, and the global best is replaced only on
strict improvement: when this generation's best fitness does not beat the
running global best, the global best is left unchanged and the stagnation
counter is incremented (then cleared if it reached the threshold), and on
strict improvement the global best becomes this generation's argmax
chromosome and the counter resets to 0. -/
theorem claim3_monotonic_global_best :
    (∀ (r : ℕ → ℕ) (pieces : List Img) (oseq : List ℕ) (ps gens : ℕ) (mr : ℚ)
        (g e t : ℕ) (snaps : List Snapshot),
      genetic_algorithm r pieces oseq ps gens mr g e t = .ok snaps →
      List.Pairwise (fun a b => a.fitness ≤ b.fitness) snaps) ∧
    (∀ (r : ℕ → ℕ) (pieces : List Img) (oseq : List ℕ) (cfg : GAConfig)
        (st st' : GAState) (snap : Snapshot),
      gaStep r pieces oseq cfg st = .ok (st', snap) →
      ∃ bi, argmaxIdx (fitsOf pieces oseq cfg.grid_size st.population) = some bi ∧
        (beats ((fitsOf pieces oseq cfg.grid_size st.population).getD bi 0)
            st.globalBest = false →
          st'.globalBest = st.globalBest ∧
          st'.stagnation = if cfg.stagnation_threshold ≤ st.stagnation + 1 then 0
            else st.stagnation + 1) ∧
        (beats ((fitsOf pieces oseq cfg.grid_size st.population).getD bi 0)
            st.globalBest = true →
          st'.globalBest = some (st.population.getD bi [],
            (fitsOf pieces oseq cfg.grid_size st.population).getD bi 0) ∧
          st'.stagnation = 0)) := by
  constructor
  · intro r pieces oseq ps gens mr g e t snaps h
    rw [genetic_algorithm_eq] at h
    rcases gaLoop_props gens _ snaps h (initPopulation_mem r pieces ps 0)
      (initPopulation_length r pieces ps 0)
      (fun p hp => Option.noConfusion hp) with ⟨_, _, hpw⟩
    exact hpw
  · intro r pieces oseq cfg st st' snap h
    rcases gaStep_ok_inv h with ⟨bi, stagPre, pop2, k2, children, k3, harg, hcase,
      hcorrect, hdiv, hmk, hst⟩
    refine ⟨bi, harg, ?_, ?_⟩
    · intro hfalse
      rcases hcase with ⟨hbeats, _, _, _⟩ | ⟨hbeats, hgbsome, hstag⟩
      · rw [hbeats] at hfalse
        exact absurd hfalse (by simp)
      · constructor
        · rw [hst]
          simp only
          rw [hgbsome]
        · rw [hst]
          simp only
          rw [hstag]
    · intro htrue
      rcases hcase with ⟨hbeats, hchromo, hfit, hstag⟩ | ⟨hbeats, _, _⟩
      · constructor
        · rw [hst]
          simp only
          rw [hchromo, hfit]
        · rw [hst]
          simp only
          rw [hstag]
          by_cases hdiv0 : cfg.stagnation_threshold ≤ 0
          · rw [if_pos hdiv0]
          · rw [if_neg hdiv0]
      · rw [hbeats] at htrue
        exact absurd htrue (by simp)

/-- Witness for C3 on the concrete run of claim4_witness. -/
theorem claim3_witness :
    genetic_algorithm r0 pieces4 (List.range 4) 3 2 0 2 3 20 =
      .ok [⟨[1, 2, 3, 0], 4, 0⟩, ⟨[1, 2, 3, 0], 4, 0⟩] ∧
    List.Pairwise (fun a b : Snapshot => a.fitness ≤ b.fitness)
      [⟨[1, 2, 3, 0], 4, 0⟩, ⟨[1, 2, 3, 0], 4, 0⟩] :=
  ⟨by decide, claim3_monotonic_global_best.1 r0 pieces4 (List.range 4) 3 2 0 2 3 20
    _ (by decide)⟩

/-- Claim C2: the original_sequence handed to the GA by the extractor is the
identity arrangement 0..N-1, and in every snapshot recorded by a run over
it the correct-positions count agrees with the snapshot's recorded
chromosome: it counts exactly the positions i at which the recorded
chromosome places tile id i. -/
theorem claim2_correct_positions_consistency :
    (∀ (resize : Img → ℕ → ℕ → Img) (img : Img) (g : ℕ) (pieces : List Img)
        (oseq : List ℕ), split_image resize img g = .ok (pieces, oseq) →
      oseq = List.range pieces.length) ∧
    (∀ (r : ℕ → ℕ) (pieces : List Img) (ps gens : ℕ) (mr : ℚ) (g e t : ℕ)
        (snaps : List Snapshot),
      genetic_algorithm r pieces (List.range pieces.length) ps gens mr g e t =
        .ok snaps →
      ∀ s ∈ snaps, s.correct = ((List.range s.chromo.length).filter
        (fun i => decide (s.chromo.getD i 0 = i))).length) := by
  constructor
  · intro resize img g pieces oseq h
    rcases split_image_ok h with ⟨_, hoseq, hplen⟩
    rw [hoseq, hplen]
  · intro r pieces ps gens mr g e t snaps h s hs
    rw [genetic_algorithm_eq] at h
    rcases gaLoop_props gens _ snaps h (initPopulation_mem r pieces ps 0)
      (initPopulation_length r pieces ps 0)
      (fun p hp => Option.noConfusion hp) with ⟨hall, _, _⟩
    rcases hall s hs with ⟨hperm, _, hcnt⟩
    have hchlen : s.chromo.length = pieces.length := by
      have := hperm.length_eq
      simpa using this
    rw [hcnt]
    unfold calculate_fitness
    dsimp only
    rw [count_true_map]
    congr 1
    apply List.filter_congr
    intro i hi
    have hilt : i < pieces.length := by
      rw [← hchlen]
      exact List.mem_range.mp hi
    rw [getD_range hilt]

/-- Witness for C2 on the concrete run of claim4_witness. -/
theorem claim2_witness :
    genetic_algorithm r0 pieces4 (List.range pieces4.length) 3 2 0 2 3 20 =
      .ok [⟨[1, 2, 3, 0], 4, 0⟩, ⟨[1, 2, 3, 0], 4, 0⟩] ∧
    ∀ s ∈ [(⟨[1, 2, 3, 0], 4, 0⟩ : Snapshot), ⟨[1, 2, 3, 0], 4, 0⟩],
      s.correct = ((List.range s.chromo.length).filter
        (fun i => decide (s.chromo.getD i 0 = i))).length :=
  ⟨by decide, fun s hs => claim2_correct_positions_consistency.2 r0 pieces4
    3 2 0 2 3 20 _ (by decide) s hs⟩

/-- Claim C1: a successful generation step appends a snapshot holding the
current (just-updated) global-best chromosome and global-best fitness,
while the snapshot's correct-positions count is read off the chromosome at
this generation's best_index, the argmax of this generation's fitnesses;
on a non-improving generation the recorded chromosome is the old global
best while the count is still taken at best_index. -/
theorem claim1_snapshot_sources (r : ℕ → ℕ) (pieces : List Img) (oseq : List ℕ)
    (cfg : GAConfig) (st st' : GAState) (snap : Snapshot)
    (h : gaStep r pieces oseq cfg st = .ok (st', snap)) :
    ∃ bi, argmaxIdx (fitsOf pieces oseq cfg.grid_size st.population) = some bi ∧
      snap.correct = (calculate_fitness (st.population.getD bi []) pieces oseq
        cfg.grid_size).2.count true ∧
      (beats ((fitsOf pieces oseq cfg.grid_size st.population).getD bi 0)
          st.globalBest = true →
        snap.chromo = st.population.getD bi [] ∧
        snap.fitness = (fitsOf pieces oseq cfg.grid_size st.population).getD bi 0) ∧
      (beats ((fitsOf pieces oseq cfg.grid_size st.population).getD bi 0)
          st.globalBest = false →
        st.globalBest = some (snap.chromo, snap.fitness)) ∧
      st'.globalBest = some (snap.chromo, snap.fitness) := by
  rcases gaStep_ok_inv h with ⟨bi, stagPre, pop2, k2, children, k3, harg, hcase,
    hcorrect, hdiv, hmk, hst⟩
  have hbip : bi < st.population.length := by
    have := argmaxIdx_lt harg
    rw [fitsOf_length] at this
    exact this
  refine ⟨bi, harg, ?_, ?_, ?_, ?_⟩
  · rw [hcorrect, countsOf_getD hbip]
  · intro htrue
    rcases hcase with ⟨_, hchromo, hfit, _⟩ | ⟨hbeats, _, _⟩
    · exact ⟨hchromo, hfit⟩
    · rw [hbeats] at htrue
      exact absurd htrue (by simp)
  · intro hfalse
    rcases hcase with ⟨hbeats, _, _, _⟩ | ⟨_, hgbsome, _⟩
    · rw [hbeats] at hfalse
      exact absurd hfalse (by simp)
    · exact hgbsome
  · rw [hst]

/-- Witness for C1 on the first generation step of a concrete run. -/
theorem claim1_witness :
    gaStep r0 pieces4 (List.range 4) cfgW st0W =
      .ok (⟨[[1, 2, 3, 0], [1, 2, 3, 0], [1, 2, 3, 0]],
            some ([1, 2, 3, 0], 4), 0, 9⟩, ⟨[1, 2, 3, 0], 4, 0⟩) ∧
    ∃ bi, argmaxIdx (fitsOf pieces4 (List.range 4) cfgW.grid_size
        st0W.population) = some bi ∧
      (⟨[1, 2, 3, 0], 4, 0⟩ : Snapshot).correct =
        (calculate_fitness (st0W.population.getD bi []) pieces4 (List.range 4)
          cfgW.grid_size).2.count true ∧
      (beats ((fitsOf pieces4 (List.range 4) cfgW.grid_size st0W.population).getD bi 0)
          st0W.globalBest = true →
        (⟨[1, 2, 3, 0], 4, 0⟩ : Snapshot).chromo = st0W.population.getD bi [] ∧
        (⟨[1, 2, 3, 0], 4, 0⟩ : Snapshot).fitness =
          (fitsOf pieces4 (List.range 4) cfgW.grid_size st0W.population).getD bi 0) ∧
      (beats ((fitsOf pieces4 (List.range 4) cfgW.grid_size st0W.population).getD bi 0)
          st0W.globalBest = false →
        st0W.globalBest = some ((⟨[1, 2, 3, 0], 4, 0⟩ : Snapshot).chromo,
          (⟨[1, 2, 3, 0], 4, 0⟩ : Snapshot).fitness)) ∧
      (⟨[[1, 2, 3, 0], [1, 2, 3, 0], [1, 2, 3, 0]],
        some ([1, 2, 3, 0], 4), 0, 9⟩ : GAState).globalBest =
        some ((⟨[1, 2, 3, 0], 4, 0⟩ : Snapshot).chromo,
          (⟨[1, 2, 3, 0], 4, 0⟩ : Snapshot).fitness) :=
  ⟨by decide, claim1_snapshot_sources r0 pieces4 (List.range 4) cfgW st0W _ _
    (by decide)⟩

/-- Claim C10: over byte-range tiles every edge score lies in [0,1] and the
evaluator's fitness is non-negative; the global best starts at negative
infinity (modelled by none, which any fitness beats), so a step with no
global best yet always adopts this generation's argmax chromosome and
resets stagnation, after every successful step the global best is defined
and equals the snapshot just recorded, and the `None.copy()` failure
(attributeError) can never occur in the generation loop. -/
theorem claim10_fitness_nonneg_best_defined :
    (∀ (p1 p2 : Img) (d : Dir), PxBound p1 → PxBound p2 →
      0 ≤ compare_edges p1 p2 d ∧ compare_edges p1 p2 d ≤ 1) ∧
    (∀ (chromo : List ℕ) (pieces : List Img) (oseq : List ℕ) (g : ℕ),
      (∀ p ∈ pieces, PxBound p) →
      0 ≤ (calculate_fitness chromo pieces oseq g).1) ∧
    (∀ (r : ℕ → ℕ) (pieces : List Img) (oseq : List ℕ) (cfg : GAConfig)
        (st st' : GAState) (snap : Snapshot),
      gaStep r pieces oseq cfg st = .ok (st', snap) →
      st'.globalBest = some (snap.chromo, snap.fitness)) ∧
    (∀ (r : ℕ → ℕ) (pieces : List Img) (oseq : List ℕ) (cfg : GAConfig)
        (g : ℕ) (st : GAState),
      gaLoop r pieces oseq cfg g st ≠ .error .attributeError) ∧
    (∀ (r : ℕ → ℕ) (pieces : List Img) (oseq : List ℕ) (cfg : GAConfig)
        (st st' : GAState) (snap : Snapshot), st.globalBest = none →
      gaStep r pieces oseq cfg st = .ok (st', snap) →
      ∃ bi, argmaxIdx (fitsOf pieces oseq cfg.grid_size st.population) = some bi ∧
        snap.chromo = st.population.getD bi [] ∧ st'.stagnation = 0) := by
  refine ⟨?_, ?_, ?_, ?_, ?_⟩
  · intro p1 p2 d h1 h2
    exact compare_edges_bounds h1 h2 d
  · intro chromo pieces oseq g hpx
    exact calculate_fitness_nonneg hpx
  · intro r pieces oseq cfg st st' snap h
    rcases gaStep_ok_inv h with ⟨bi, stagPre, pop2, k2, children, k3, _, _, _, _, _, hst⟩
    rw [hst]
  · intro r pieces oseq cfg g st hcontra
    rcases gaLoop_error_kind hcontra with hv | hi
    · exact PyErr.noConfusion hv
    · exact PyErr.noConfusion hi
  · intro r pieces oseq cfg st st' snap hnone h
    rcases gaStep_ok_inv h with ⟨bi, stagPre, pop2, k2, children, k3, harg, hcase,
      _, _, _, hst⟩
    rcases hcase with ⟨_, hchromo, _, hstag⟩ | ⟨hbeats, _, _⟩
    · refine ⟨bi, harg, hchromo, ?_⟩
      rw [hst]
      simp only
      rw [hstag]
      by_cases hdiv0 : cfg.stagnation_threshold ≤ 0
      · rw [if_pos hdiv0]
      · rw [if_neg hdiv0]
    · rw [hnone] at hbeats
      exact absurd hbeats (by simp [beats])

/-- Witness for C10: the 1×1 black tile is byte-bounded and its edge scores
and fitness satisfy the bounds. -/
theorem claim10_witness :
    PxBound tile0 ∧
    (0 ≤ compare_edges tile0 tile0 Dir.right ∧
      compare_edges tile0 tile0 Dir.right ≤ 1) := by
  have hpx : PxBound tile0 := by
    intro x y v hv
    simp only [tile0] at hv
    rcases List.mem_singleton.mp hv with rfl
    exact ⟨le_refl 0, by norm_num⟩
  exact ⟨hpx, claim10_fitness_nonneg_best_defined.1 tile0 tile0 Dir.right hpx hpx⟩

/-- Claim C9: for an image with positive area and 1 ≤ grid_size ≤
min(width, height), assembling the extractor's tiles with the reference
identity chromosome (the extractor's original_sequence) reproduces the
resized input image exactly, pixel for pixel, with the same dimensions. -/
theorem claim9_round_trip (resize : Img → ℕ → ℕ → Img) (img : Img) (g : ℕ)
    (hg : 1 ≤ g) (hgw : g ≤ img.width) (hgh : g ≤ img.height)
    (pieces : List Img) (oseq : List ℕ)
    (hsplit : split_image resize img g = .ok (pieces, oseq))
    (hrw : (resize img (img.width / g * g) (img.height / g * g)).width =
      img.width / g * g)
    (hrh : (resize img (img.width / g * g) (img.height / g * g)).height =
      img.height / g * g) :
    ImgEq (assemble_image oseq pieces g)
      (resize img (img.width / g * g) (img.height / g * g)) := by
  have hg0 : g ≠ 0 := by omega
  have hpw : 1 ≤ img.width / g := (Nat.one_le_div_iff (by omega)).mpr hgw
  have hph : 1 ≤ img.height / g := (Nat.one_le_div_iff (by omega)).mpr hgh
  unfold split_image at hsplit
  rw [if_neg hg0] at hsplit
  have hpair := Prod.mk.inj (Except.ok.inj hsplit)
  have hpieces : pieces = (List.range g).flatMap (fun i => (List.range g).map
      (fun j => crop (resize img (img.width / g * g) (img.height / g * g))
        (j * (img.width / g)) (i * (img.height / g)) (img.width / g)
        (img.height / g))) := hpair.1.symm
  have hoseq : oseq = List.range (g * g) := by
    rw [← hpair.2]
    exact flatMap_range_grid g g
  have hgetD : ∀ q rr : ℕ, q < g → rr < g →
      pieces.getD (q * g + rr) emptyImg =
      crop (resize img (img.width / g * g) (img.height / g * g))
        (rr * (img.width / g)) (q * (img.height / g)) (img.width / g)
        (img.height / g) := by
    intro q rr hq hr
    rw [hpieces]
    exact flatMap_range_map_getD emptyImg g _ g q rr hq hr
  have hp0 : pieces.getD 0 emptyImg =
      crop (resize img (img.width / g * g) (img.height / g * g))
        (0 * (img.width / g)) (0 * (img.height / g)) (img.width / g)
        (img.height / g) := by
    have h00 := hgetD 0 0 (by omega) (by omega)
    simpa using h00
  have hw0 : (pieces.getD 0 emptyImg).width = img.width / g := by
    rw [hp0]
    rfl
  have hh0 : (pieces.getD 0 emptyImg).height = img.height / g := by
    rw [hp0]
    rfl
  unfold assemble_image ImgEq
  dsimp only
  rw [hw0, hh0]
  refine ⟨hrw.symm, hrh.symm, ?_⟩
  intro x hx y hy
  rw [Finset.mem_range] at hx hy
  have hq : y / (img.height / g) < g := by
    rw [Nat.div_lt_iff_lt_mul (by omega), Nat.mul_comm g (img.height / g)]
    omega
  have hr : x / (img.width / g) < g := by
    rw [Nat.div_lt_iff_lt_mul (by omega), Nat.mul_comm g (img.width / g)]
    omega
  have hidx : y / (img.height / g) * g + x / (img.width / g) < g * g := by
    have h1 : y / (img.height / g) * g + x / (img.width / g) <
        (y / (img.height / g) + 1) * g := by
      have : (y / (img.height / g) + 1) * g = y / (img.height / g) * g + g := by ring
      omega
    have h2 : (y / (img.height / g) + 1) * g ≤ g * g :=
      Nat.mul_le_mul_right g hq
    omega
  rw [hoseq, getD_range hidx]
  rw [hgetD _ _ hq hr]
  unfold crop
  dsimp only
  congr 1
  · rw [Nat.mul_comm]
    exact Nat.div_add_mod x (img.width / g)
  · rw [Nat.mul_comm]
    exact Nat.div_add_mod y (img.height / g)

/-- Witness for C9 on a concrete 2×2 image with grid_size 1 and an identity
resize stub. -/
theorem claim9_witness :
    (1 ≤ 1 ∧ 1 ≤ imgW.width ∧ 1 ≤ imgW.height) ∧
    ImgEq (assemble_image [0] [crop imgW 0 0 2 2] 1)
      (resizeId imgW (imgW.width / 1 * 1) (imgW.height / 1 * 1)) :=
  ⟨⟨le_refl 1, by decide, by decide⟩,
    claim9_round_trip resizeId imgW 1 (le_refl 1) (by decide) (by decide)
      [crop imgW 0 0 2 2] [0] rfl rfl rfl⟩

/-- Counterexample to claim C6 on a reachable generation: with
stagnation_threshold 0 the first generation diversifies, the fresh
replacement chromosome [1,2,3,0] (actual fitness 4) inherits the stale
fitness 24 of the slot it replaced and is carried as an elite, while
[1,2,0,3] with actual fitness 9 stays behind — the carried elites are not
the fittest members of the diversified population. -/
theorem claim6_counterexample :
    gaStep rC6 pieces4 (List.range 4) cfgC6 st0C6 =
      .ok (⟨[[0, 1, 2, 3], [0, 3, 2, 1], [1, 2, 3, 0]],
            some ([0, 1, 2, 3], 24), 0, 24⟩, ⟨[0, 1, 2, 3], 24, 4⟩) ∧
    (diversify rC6 pieces4 cfgC6.population_size st0C6.population st0C6.rngPos).1 =
      [[1, 2, 0, 3], [0, 3, 2, 1], [1, 2, 3, 0]] ∧
    elitesOf (fitsOf pieces4 (List.range 4) cfgC6.grid_size st0C6.population)
      (diversify rC6 pieces4 cfgC6.population_size st0C6.population st0C6.rngPos).1
      cfgC6.elite_count = [[1, 2, 3, 0], [0, 3, 2, 1]] ∧
    (calculate_fitness [1, 2, 3, 0] pieces4 (List.range 4) cfgC6.grid_size).1 <
      (calculate_fitness [1, 2, 0, 3] pieces4 (List.range 4) cfgC6.grid_size).1 ∧
    [1, 2, 0, 3] ∈
      (diversify rC6 pieces4 cfgC6.population_size st0C6.population st0C6.rngPos).1 ∧
    [1, 2, 0, 3] ∉
      elitesOf (fitsOf pieces4 (List.range 4) cfgC6.grid_size st0C6.population)
        (diversify rC6 pieces4 cfgC6.population_size st0C6.population st0C6.rngPos).1
        cfgC6.elite_count := by
  refine ⟨by decide, by decide, by decide, by decide, by decide, by decide⟩

/-- Claim C6 as amended: elitism sorts the possibly-diversified population
paired positionally with the fitnesses computed before diversification
(stable descending by that stale key) and copies the first elite_count
chromosomes; when the pairing is truthful — the keys are the population's
own fitnesses, as is the case whenever no diversification occurred this
generation — every carried elite is at least as fit as every dropped
member. -/
theorem claim6_elitism_stale_sort :
    (∀ (r : ℕ → ℕ) (pieces : List Img) (oseq : List ℕ) (cfg : GAConfig)
        (st st' : GAState) (snap : Snapshot),
      gaStep r pieces oseq cfg st = .ok (st', snap) →
      ∃ (pop2 children : List (List ℕ)),
        (pop2 = st.population ∨
          pop2 = (diversify r pieces cfg.population_size st.population st.rngPos).1) ∧
        st'.population = (elitesOf (fitsOf pieces oseq cfg.grid_size st.population)
          pop2 cfg.elite_count ++ children).set 0 snap.chromo) ∧
    (∀ l : List (ℚ × List ℕ), List.Perm (sortDesc l) l ∧
      List.Pairwise (fun a b => b.1 ≤ a.1) (sortDesc l)) ∧
    (∀ (pieces : List Img) (oseq : List ℕ) (g : ℕ) (pop : List (List ℕ)) (e : ℕ),
      ∀ c ∈ elitesOf (fitsOf pieces oseq g pop) pop e,
      ∀ d ∈ ((sortDesc ((fitsOf pieces oseq g pop).zip pop)).map Prod.snd).drop e,
      (calculate_fitness d pieces oseq g).1 ≤ (calculate_fitness c pieces oseq g).1) := by
  refine ⟨?_, ?_, ?_⟩
  · intro r pieces oseq cfg st st' snap h
    rcases gaStep_ok_inv h with ⟨bi, stagPre, pop2, k2, children, k3, _, _, _, hdiv,
      _, hst⟩
    refine ⟨pop2, children, ?_, ?_⟩
    · rcases hdiv with ⟨_, hpe, _⟩ | ⟨_, hpe, _⟩
      · exact Or.inr hpe
      · exact Or.inl hpe
    · rw [hst]
  · intro l
    exact ⟨sortDesc_perm l, sortDesc_pairwise l⟩
  · intro pieces oseq g pop e c hc d hd
    have hzip : (fitsOf pieces oseq g pop).zip pop =
        pop.map (fun a => ((calculate_fitness a pieces oseq g).1, a)) := by
      unfold fitsOf
      exact zip_map_fst _ pop
    have hshape : ∀ pr ∈ sortDesc ((fitsOf pieces oseq g pop).zip pop),
        pr.1 = (calculate_fitness pr.2 pieces oseq g).1 := by
      intro pr hpr
      have hmem : pr ∈ (fitsOf pieces oseq g pop).zip pop :=
        (sortDesc_perm _).mem_iff.mp hpr
      rw [hzip] at hmem
      rcases List.mem_map.mp hmem with ⟨a, _, hpa⟩
      rw [← hpa]
    unfold elitesOf at hc
    rw [← List.map_take] at hc
    rcases List.mem_map.mp hc with ⟨pc, hpc, hpcc⟩
    rw [← List.map_drop] at hd
    rcases List.mem_map.mp hd with ⟨pd, hpd, hpdd⟩
    have hpw := sortDesc_pairwise ((fitsOf pieces oseq g pop).zip pop)
    rw [← List.take_append_drop e (sortDesc ((fitsOf pieces oseq g pop).zip pop))]
      at hpw
    rcases List.pairwise_append.mp hpw with ⟨_, _, hcross⟩
    have hle := hcross pc hpc pd hpd
    have hc1 := hshape pc (List.mem_of_mem_take hpc)
    have hd1 := hshape pd (by
      have := List.mem_of_mem_drop hpd
      rw [← List.take_append_drop e (sortDesc ((fitsOf pieces oseq g pop).zip pop))]
      exact List.mem_append.mpr (Or.inr hpd))
    rw [hpcc] at hc1
    rw [hpdd] at hd1
    rw [← hc1, ← hd1]
    exact hle

/-- Witness for the amended C6 on a two-chromosome population with
truthful fitness pairing. -/
theorem claim6_witness :
    ([0, 1, 2, 3] ∈ elitesOf
      (fitsOf pieces4 (List.range 4) 2 [[0, 1, 2, 3], [1, 0, 2, 3]])
      [[0, 1, 2, 3], [1, 0, 2, 3]] 1) ∧
    ([1, 0, 2, 3] ∈ ((sortDesc ((fitsOf pieces4 (List.range 4) 2
        [[0, 1, 2, 3], [1, 0, 2, 3]]).zip
        [[0, 1, 2, 3], [1, 0, 2, 3]])).map Prod.snd).drop 1) ∧
    (calculate_fitness [1, 0, 2, 3] pieces4 (List.range 4) 2).1 ≤
      (calculate_fitness [0, 1, 2, 3] pieces4 (List.range 4) 2).1 :=
  ⟨by decide, by decide, claim6_elitism_stale_sort.2.2 pieces4 (List.range 4) 2
    [[0, 1, 2, 3], [1, 0, 2, 3]] 1 [0, 1, 2, 3] (by decide) [1, 0, 2, 3] (by decide)⟩

/-- Counterexample to claim C7: no configuration validation exists.
With grid_size 0 the request is not rejected with a configuration error
before computation; tile extraction starts and dies on the division
width // grid_size. With population_size 0 (which is < 1 and < the
default elite_count 10) extraction and population initialization run and
the error only surfaces inside the generation loop as np.argmax of an
empty list. -/
theorem claim7_counterexample :
    solve_puzzle resizeId r0 imgW 0 5 5 0 = .error .zeroDivisionError ∧
    solve_puzzle resizeId r0 imgW 1 0 1 0 = .error .valueError :=
  ⟨by decide, by decide⟩

/-- Claim C7 as amended: there is no validation layer. grid_size = 0
always propagates a ZeroDivisionError out of tile extraction; a
population_size of 0 with at least one generation always propagates a
ValueError out of the generation loop (after extraction and
initialization already ran); generations = 0 returns an empty snapshot
list successfully for any population_size, so no configuration is
rejected up front. -/
theorem claim7_no_validation :
    (∀ (resize : Img → ℕ → ℕ → Img) (r : ℕ → ℕ) (img : Img) (ps gens : ℕ)
        (mr : ℚ),
      solve_puzzle resize r img 0 ps gens mr = .error .zeroDivisionError) ∧
    (∀ (resize : Img → ℕ → ℕ → Img) (r : ℕ → ℕ) (img : Img) (g gens : ℕ)
        (mr : ℚ), g ≠ 0 → 1 ≤ gens →
      solve_puzzle resize r img g 0 gens mr = .error .valueError) ∧
    (∀ (resize : Img → ℕ → ℕ → Img) (r : ℕ → ℕ) (img : Img) (g ps : ℕ)
        (mr : ℚ), g ≠ 0 →
      solve_puzzle resize r img g ps 0 mr = .ok []) := by
  refine ⟨?_, ?_, ?_⟩
  · intro resize r img ps gens mr
    have hsp : split_image resize img 0 = .error .zeroDivisionError := by
      unfold split_image
      rw [if_pos rfl]
    unfold solve_puzzle
    rw [hsp]
  · intro resize r img g gens mr hg hgens
    obtain ⟨po, hsp⟩ : ∃ po, split_image resize img g = .ok po := by
      unfold split_image
      rw [if_neg hg]
      exact ⟨_, rfl⟩
    unfold solve_puzzle
    rw [hsp]
    obtain ⟨n, rfl⟩ : ∃ n, gens = n + 1 := ⟨gens - 1, by omega⟩
    show genetic_algorithm r po.1 po.2 0 (n + 1) mr g 10 20 =
      .error .valueError
    rw [genetic_algorithm_eq]
    have hstep : gaStep r po.1 po.2 ⟨0, mr, g, 10, 20⟩ ⟨[], none, 0, 0⟩ =
        .error .valueError := rfl
    show gaLoop r po.1 po.2 ⟨0, mr, g, 10, 20⟩ (n + 1) ⟨[], none, 0, 0⟩ =
      .error .valueError
    rw [gaLoop, hstep]
  · intro resize r img g ps mr hg
    obtain ⟨po, hsp⟩ : ∃ po, split_image resize img g = .ok po := by
      unfold split_image
      rw [if_neg hg]
      exact ⟨_, rfl⟩
    unfold solve_puzzle
    rw [hsp]
    show genetic_algorithm r po.1 po.2 ps 0 mr g 10 20 = .ok []
    rw [genetic_algorithm_eq]
    rfl

/-- Witness for the amended C7 at concrete inputs. -/
theorem claim7_witness :
    ((2 : ℕ) ≠ 0 ∧ (1 : ℕ) ≤ 1 ∧
      solve_puzzle resizeId r0 imgW 2 0 1 0 = .error .valueError) ∧
    ((2 : ℕ) ≠ 0 ∧ solve_puzzle resizeId r0 imgW 2 5 0 0 = .ok []) :=
  ⟨⟨by decide, by decide,
    claim7_no_validation.2.1 resizeId r0 imgW 2 1 0 (by decide) (by decide)⟩,
   ⟨by decide, claim7_no_validation.2.2 resizeId r0 imgW 2 5 0 (by decide)⟩⟩

/-- Counterexample to claim C8: the degenerate cases are not handled.
With grid_size 1 (a single tile, chromosomes of length 1)
random.sample(range(1), 2) inside crossover raises ValueError even with a
comfortable population, and with population_size 2 tournament selection
raises ValueError from random.sample(pairs, 3); nothing clamps k. -/
theorem claim8_counterexample :
    genetic_algorithm r0 [tile0] (List.range 1) 4 1 0 1 1 20 =
      .error .valueError ∧
    genetic_algorithm r0 pieces4 (List.range 4) 2 1 0 2 1 20 =
      .error .valueError :=
  ⟨by decide, by decide⟩

/-- Claim C8 as amended: crossover on parents shorter than 2 and
tournament selection on populations smaller than 3 raise ValueError
(nothing is clamped); a generation step is error-free only in
configurations that never reach them, e.g. whenever elitism alone fills
the next generation (elite_count at least population_size), the step
succeeds on any non-empty population of matching size. -/
theorem claim8_degenerate_errors :
    (∀ (r : ℕ → ℕ) (p1 p2 : List ℕ) (k : ℕ), p1.length < 2 →
      crossover r p1 p2 k = .error .valueError) ∧
    (∀ (r : ℕ → ℕ) (pop : List (List ℕ)) (fits : List ℚ) (k : ℕ),
      pop.length < 3 →
      tournament_selection r pop fits k = .error .valueError) ∧
    (∀ (r : ℕ → ℕ) (pieces : List Img) (oseq : List ℕ) (cfg : GAConfig)
        (st : GAState),
      st.population ≠ [] → st.population.length = cfg.population_size →
      cfg.population_size ≤ cfg.elite_count →
      ∃ out, gaStep r pieces oseq cfg st = .ok out) := by
  refine ⟨?_, ?_, ?_⟩
  · intro r p1 p2 k h
    have hs : sample2 r p1.length k = .error .valueError := by
      unfold sample2
      rw [if_pos h]
    unfold crossover
    rw [hs]
  · intro r pop fits k h
    have hs : sample3 r pop.length k = .error .valueError := by
      unfold sample3
      rw [if_pos h]
    unfold tournament_selection
    rw [hs]
  · intro r pieces oseq cfg st hne hlen hpe
    have hflen : (fitsOf pieces oseq cfg.grid_size st.population).length =
        st.population.length := fitsOf_length _ _ _ _
    have hfne : fitsOf pieces oseq cfg.grid_size st.population ≠ [] := by
      intro h0
      rw [h0] at hflen
      exact hne (List.eq_nil_of_length_eq_zero hflen.symm)
    cases harg : argmaxIdx (fitsOf pieces oseq cfg.grid_size st.population) with
    | none => exact absurd ((argmaxIdx_eq_none_iff _).mp harg) hfne
    | some bi =>
      rw [gaStep, harg]
      dsimp only
      by_cases hbeats : beats
          ((fitsOf pieces oseq cfg.grid_size st.population).getD bi 0)
          st.globalBest = true
      · rw [if_pos hbeats]
        dsimp only
        by_cases hdiv : cfg.stagnation_threshold ≤ 0
        · rw [if_pos hdiv]
          dsimp only
          have hel : (elitesOf (fitsOf pieces oseq cfg.grid_size st.population)
              (diversify r pieces cfg.population_size st.population st.rngPos).1
              cfg.elite_count).length = cfg.population_size := by
            rw [elitesOf_length, hflen, diversify_length, hlen, Nat.min_self]
            exact min_eq_right hpe
          rw [hel, Nat.sub_self]
          exact ⟨_, rfl⟩
        · rw [if_neg hdiv]
          dsimp only
          have hel : (elitesOf (fitsOf pieces oseq cfg.grid_size st.population)
              st.population cfg.elite_count).length = cfg.population_size := by
            rw [elitesOf_length, hflen, hlen, Nat.min_self]
            exact min_eq_right hpe
          rw [hel, Nat.sub_self]
          exact ⟨_, rfl⟩
      · cases hgb : st.globalBest with
        | none =>
          rw [hgb] at hbeats
          exact absurd rfl hbeats
        | some gbp =>
          rw [hgb] at hbeats
          rw [if_neg hbeats]
          dsimp only
          by_cases hdiv : cfg.stagnation_threshold ≤ st.stagnation + 1
          · rw [if_pos hdiv]
            dsimp only
            have hel : (elitesOf
                (fitsOf pieces oseq cfg.grid_size st.population)
                (diversify r pieces cfg.population_size st.population
                  st.rngPos).1 cfg.elite_count).length = cfg.population_size := by
              rw [elitesOf_length, hflen, diversify_length, hlen, Nat.min_self]
              exact min_eq_right hpe
            rw [hel, Nat.sub_self]
            exact ⟨_, rfl⟩
          · rw [if_neg hdiv]
            dsimp only
            have hel : (elitesOf
                (fitsOf pieces oseq cfg.grid_size st.population)
                st.population cfg.elite_count).length = cfg.population_size := by
              rw [elitesOf_length, hflen, hlen, Nat.min_self]
              exact min_eq_right hpe
            rw [hel, Nat.sub_self]
            exact ⟨_, rfl⟩

/-- Witness for the amended C8 at concrete inputs. -/
theorem claim8_witness :
    (([0] : List ℕ).length < 2 ∧ crossover r0 [0] [0] 0 = .error .valueError) ∧
    ([[0]].length < 3 ∧
      tournament_selection r0 [[0]] [1] 0 = .error .valueError) ∧
    (∃ out, gaStep r0 pieces4 (List.range 4) ⟨1, 0, 2, 2, 20⟩
      ⟨[[0, 1, 2, 3]], none, 0, 0⟩ = .ok out) :=
  ⟨⟨by decide, claim8_degenerate_errors.1 r0 [0] [0] 0 (by decide)⟩,
   ⟨by decide, claim8_degenerate_errors.2.1 r0 [[0]] [1] 0 (by decide)⟩,
   claim8_degenerate_errors.2.2 r0 pieces4 (List.range 4) ⟨1, 0, 2, 2, 20⟩
     ⟨[[0, 1, 2, 3]], none, 0, 0⟩ (by decide) (by decide) (by decide)⟩

end JigsawGA
